import Mathlib

/-!
Verification of the SSP dialect's conversion core between the document form
(`ssp.instance` / `ssp.operator_type` / `ssp.operation` ops with their
`dependences` and `properties` array attributes) and the scheduling
infrastructure's extensible problem model.  The embedded code is
`lib/Dialect/SSP/SSPOps.cpp` (the per-operation dependence codec:
`OperationOp::parse`, `OperationOp::verify`, `OperationOp::verifySymbolUses`)
and `include/circt/Dialect/SSP/Utilities.h` (`loadProblem`, `saveProblem`,
and the variadic property load/save helpers).
-/

namespace SSP

/-- An encoded property value `(tag, payload)`: the `tag` stands for the
identity of the attribute's C++ class (the thing `TypeSwitch` dispatches on),
the `payload` for its contents. -/
abbrev EncodedProp := Nat × Nat

/-- A recognized property kind.  Modelled from the spec: the collaborator
contract for property kinds (§6) — each kind supplies
`tryDecode(encodedValue) -> accepted?`, `installInto(problem, attachmentPoint)`
and `queryFrom(problem, attachmentPoint) -> optional encodedValue`.  A kind
accepts exactly the encoded values carrying its `tag` (the `TypeSwitch`
`Case` on the kind's attribute class), and installs/queries the problem
property store at its `slot`. -/
structure PropKind where
  tag : Nat
  slot : Nat
deriving DecidableEq

/-- The property store at one attachment point: slot index to stored payload. -/
def PropMap := Nat → Option Nat

/-- The empty property store. -/
def emptyProps : PropMap := fun _ => none

/-- Whether a kind's decoder accepts an encoded value (`TypeSwitch` `Case`
match on the kind's attribute class). -/
def PropKind.accepts (k : PropKind) (a : EncodedProp) : Bool :=
  a.1 == k.tag

/-- `p.setInProblem(prob, point)`: store the decoded payload at the kind's
slot of the attachment point's property store. -/
def PropKind.install (k : PropKind) (a : EncodedProp) (m : PropMap) : PropMap :=
  fun s => if s = k.slot then some a.2 else m s

/-- `K::getFromProblem(prob, point, ctx)`: query the kind's slot and, when a
value is present, re-encode it with the kind's tag; otherwise a null
attribute. -/
def PropKind.query (k : PropKind) (m : PropMap) : Option EncodedProp :=
  (m k.slot).map fun v => (k.tag, v)

/-- One step of the first-match property dispatch, i.e.
`TypeSwitch<Attribute>(prop).Case<P1, P2, ...>(...)` with no default case:
the first kind in the list whose decoder accepts the value installs it; if no
kind accepts it, nothing happens. -/
def dispatchProp (kinds : List PropKind) (a : EncodedProp) (m : PropMap) : PropMap :=
  match kinds.find? (fun k => k.accepts a) with
  | some k => k.install a m
  | none => m

/-- Dispatch a whole encoded sequence, value by value, onto a store (the
`for (auto prop : props)` loop of the property loaders). -/
def installSeq (kinds : List PropKind) (l : List EncodedProp) (m : PropMap) : PropMap :=
  l.foldl (fun m a => dispatchProp kinds a m) m

/-- The body shared by `loadOperationProperties`, `loadOperatorTypeProperties`,
`loadDependenceProperties` and `loadInstanceProperties` in `Utilities.h`: a
null `props` attribute is a no-op, otherwise each encoded value of the array
is dispatched (first match wins) onto the attachment point's store `m`. -/
def loadProps (kinds : List PropKind) (props : Option (List EncodedProp)) (m : PropMap) : PropMap :=
  match props with
  | none => m
  | some l => installSeq kinds l m

/-- The values produced by querying every kind in list order from a store
(the fold expression of the property savers). -/
def emitSeq (kinds : List PropKind) (m : PropMap) : List EncodedProp :=
  kinds.filterMap (fun k => k.query m)

/-- The body shared by `saveOperationProperties` (and the operator-type /
dependence / instance variants) in `Utilities.h`: query every kind in list
order, keep the produced values, and return a null attribute when none were
produced. -/
def saveProps (kinds : List PropKind) (m : PropMap) : Option (List EncodedProp) :=
  if (emitSeq kinds m).isEmpty then none else some (emitSeq kinds m)

/-- A record of the `dependences` array attribute (`DependenceAttr`): an
operand/slot index, an optional source symbol reference, and an optional
property array. -/
structure DependenceAttr where
  operandIdx : Nat
  sourceRef : Option String
  properties : Option (List EncodedProp)
deriving DecidableEq

/-- An `ssp.operation`: optional symbol name, SSA operands (each one is the
pair `(producer operation index, producer result index)` inside the enclosing
instance), result count, and the optional `dependences` and `properties`
array attributes. -/
structure OperationOp where
  sym_name : Option String
  operands : List (Nat × Nat)
  numResults : Nat
  dependences : Option (List DependenceAttr)
  properties : Option (List EncodedProp)
deriving DecidableEq, Inhabited

/-- An `ssp.operator_type`: symbol name plus optional `properties` array. -/
structure OperatorTypeOp where
  sym_name : String
  properties : Option (List EncodedProp)
deriving DecidableEq

/-- An `ssp.instance`: optional instance name, problem (class) name, optional
instance `properties`, and the body holding the operator-type declarations
followed by the operation declarations, in document order. -/
structure InstanceOp where
  instanceName : Option String
  problemName : String
  properties : Option (List EncodedProp)
  operatorTypes : List OperatorTypeOp
  operations : List OperationOp
deriving DecidableEq

/-! ### `OperationOp::verify` (SSPOps.cpp) -/

/-- The loop of `OperationOp::verify`, carrying `int lastIdx` (initially -1).
Data (def-use) records must have in-bounds, strictly increasing indices;
auxiliary records must have indices `>= nOperands` that are consecutive,
with the special case that the first one equals `nOperands`. -/
def verifyGo (nOperands : Int) : Int → List DependenceAttr → Bool
  | _, [] => true
  | lastIdx, dep :: rest =>
    match dep.sourceRef with
    | none =>
        if (dep.operandIdx : Int) ≥ nOperands then false
        else if (dep.operandIdx : Int) ≤ lastIdx then false
        else verifyGo nOperands dep.operandIdx rest
    | some _ =>
        if (dep.operandIdx : Int) < nOperands then false
        else if ¬((dep.operandIdx : Int) = lastIdx + 1 ∨
            ((dep.operandIdx : Int) > lastIdx ∧ (dep.operandIdx : Int) = nOperands)) then false
        else verifyGo nOperands dep.operandIdx rest

/-- `OperationOp::verify`: succeeds trivially without a `dependences`
attribute, otherwise runs the index checks over the records. -/
def OperationOp.verify (op : OperationOp) : Bool :=
  match op.dependences with
  | none => true
  | some deps => verifyGo op.operands.length (-1) deps

/-- The maximal prefix of data-dependence records (no source reference). -/
def dataPart (l : List DependenceAttr) : List DependenceAttr :=
  l.takeWhile fun r => r.sourceRef.isNone

/-- What remains after the data prefix. -/
def auxPart (l : List DependenceAttr) : List DependenceAttr :=
  l.dropWhile fun r => r.sourceRef.isNone

/-- The document-form invariant exactly as the specification states it (§3):
data-dependence records are not interleaved with auxiliary records (i.e.
everything after the data prefix carries a source name), their slot indices
are strictly increasing and in-bounds, and the auxiliary records' slot
indices are consecutive starting exactly at the operand count. -/
def invariantDeps (n : Nat) (l : List DependenceAttr) : Prop :=
  (∀ r ∈ auxPart l, r.sourceRef.isSome) ∧
  List.Chain' (· < ·) ((dataPart l).map DependenceAttr.operandIdx) ∧
  (∀ r ∈ dataPart l, r.operandIdx < n) ∧
  (auxPart l).map DependenceAttr.operandIdx = List.range' n (auxPart l).length

/-- The invariant at the level of a whole operation. -/
def OperationOp.invariant (op : OperationOp) : Prop :=
  match op.dependences with
  | none => True
  | some deps => invariantDeps op.operands.length deps

/-! ### `OperationOp::parse` (SSPOps.cpp), dependence-list part -/

/-- One textual entry of an operation's parenthesized dependence list: either
an SSA operand (a reference to a concrete data input) or a symbol-name
reference. -/
inductive DepEntry
  | operand
  | symbol (nm : String)
deriving DecidableEq

/-- The loop body `parseDependenceSourceWithAttrDict` iterated by
`parseCommaSeparatedList`: each entry consumes one slot index
(`++operandIdx` runs unconditionally); a `DependenceAttr` is pushed exactly
when the entry is a symbol reference or carries a property array
("No need to explicitly store SSA deps without properties"). -/
def parseDepsGo : Nat → List (DepEntry × Option (List EncodedProp)) → List DependenceAttr
  | _, [] => []
  | operandIdx, (e, props) :: rest =>
    let sourceRef : Option String := match e with
      | .operand => none
      | .symbol nm => some nm
    let recs : List DependenceAttr :=
      if sourceRef.isSome || props.isSome then [⟨operandIdx, sourceRef, props⟩] else []
    recs ++ parseDepsGo (operandIdx + 1) rest

/-- The dependence records produced by `OperationOp::parse` for a textual
dependence list (`operandIdx` starts at 0). -/
def parseDependences (entries : List (DepEntry × Option (List EncodedProp))) : List DependenceAttr :=
  parseDepsGo 0 entries

/-- The record `OperationOp::parse` would materialize for the list entry at
position `i`, if any. -/
def materializedRec (ie : Nat × (DepEntry × Option (List EncodedProp))) : Option DependenceAttr :=
  match ie with
  | (_, (.operand, none)) => none
  | (i, (.operand, some ps)) => some ⟨i, none, some ps⟩
  | (i, (.symbol nm, props)) => some ⟨i, some nm, props⟩

/-! ### Symbol lookup and `OperationOp::verifySymbolUses` -/

/-- Result of looking a symbol name up in an instance: either an
`ssp.operator_type` or the `ssp.operation` at the given position. -/
inductive SymRes
  | oprType
  | oper (idx : Nat)
deriving DecidableEq

/-- `SymbolTable::lookupSymbolIn(instOp, ref)` /
`lookupNearestSymbolFrom(...)`: find the symbol-defining op with the given
name in the instance body (operator-type declarations come first in document
order, then the operations). -/
def lookupSymbolIn (instOp : InstanceOp) (nm : String) : Option SymRes :=
  if instOp.operatorTypes.any (fun o => o.sym_name == nm) then some .oprType
  else (instOp.operations.findIdx? (fun op => op.sym_name == some nm)).map SymRes.oper

/-- `OperationOp::verifySymbolUses`: every source reference of a dependence
record must resolve to an existing op that is an `OperationOp`. -/
def OperationOp.verifySymbolUses (instOp : InstanceOp) (op : OperationOp) : Bool :=
  match op.dependences with
  | none => true
  | some deps =>
    deps.all fun dep =>
      match dep.sourceRef with
      | none => true
      | some nm =>
        match lookupSymbolIn instOp nm with
        | some (.oper _) => true
        | _ => false

/-! ### The scheduling problem model

The `Problem` class itself lives in `circt/Scheduling/Problems.h`, outside
the given sources; everything below that concerns it is modelled from the
spec (§2/§3/§6 collaborator contract). -/

/-- A problem node.  Modelled from the spec: an operation is an opaque node
handle; what load/save exchange about it is its concrete inputs (def-use
edges, one per SSA operand) and its result count. -/
structure OpNode where
  operands : List (Nat × Nat)
  numResults : Nat
deriving DecidableEq, Inhabited

/-- Append an element unless it is already present (set semantics with stable
insertion order, the `SetVector` behaviour the model's stores rely on). -/
def addUnique [BEq α] (l : List α) (x : α) : List α :=
  if l.contains x then l else l ++ [x]

/-- The problem model.  Modelled from the spec: the Problem owns the operator
types (interned names, unique within a problem), the operations in insertion
order, the auxiliary dependences (per destination node, sources in insertion
order, set semantics), and one property store per attachment point:
instance-level, per operator type, per operation (identified by its position
in insertion order), per def-use dependence (destination node and operand
index) and per auxiliary dependence (destination and source node). -/
structure Problem where
  operatorTypes : List String
  operations : List OpNode
  auxDeps : Nat → List Nat
  instProps : PropMap
  oprProps : String → PropMap
  opProps : Nat → PropMap
  ddepProps : Nat → Nat → PropMap
  adepProps : Nat → Nat → PropMap

/-- The problem a load starts from: everything empty. -/
def emptyProblem : Problem where
  operatorTypes := []
  operations := []
  auxDeps := fun _ => []
  instProps := emptyProps
  oprProps := fun _ => emptyProps
  opProps := fun _ => emptyProps
  ddepProps := fun _ _ => emptyProps
  adepProps := fun _ _ => emptyProps

/-- `prob.insertOperatorType(opr)`.  Modelled from the spec: operator types
are interned names, unique within a problem. -/
def insertOperatorType (ts : List String) (nm : String) : List String :=
  addUnique ts nm

/-- Operand count of the node at position `i`. -/
def Problem.numOperands (prob : Problem) (i : Nat) : Nat :=
  (prob.operations.getD i default).operands.length

/-- A dependence as enumerated by `prob.getDependences(op)`: a def-use
dependence is addressed by its destination (operand) index, an auxiliary
dependence by its source node. -/
inductive PDep
  | defUse (operandIdx : Nat)
  | aux (src : Nat)
deriving DecidableEq

/-- `prob.getDependences(op)` for the node at position `i`.  Modelled from
the spec: the per-node ordered enumeration of incoming dependences (§6) —
the def-use dependences, one per concrete input in slot order, followed by
the auxiliary dependences in insertion order. -/
def Problem.getDependences (prob : Problem) (i : Nat) : List PDep :=
  (List.range (prob.numOperands i)).map PDep.defUse ++ (prob.auxDeps i).map PDep.aux

/-! ### `loadProblem` (Utilities.h) -/

/-- One operator-type declaration of `loadProblem`'s operator-type walk:
insert the operator type, then decode its properties onto it (keyed by the
interned name). -/
def loadOperatorTypeStep (oprKinds : List PropKind) (prob : Problem)
    (o : OperatorTypeOp) : Problem :=
  { prob with
    operatorTypes := insertOperatorType prob.operatorTypes o.sym_name
    oprProps := fun nm =>
      if nm = o.sym_name then loadProps oprKinds o.properties (prob.oprProps nm)
      else prob.oprProps nm }

/-- The operator-type walk of `loadProblem`. -/
def loadOperatorTypes (oprKinds : List PropKind) : Problem → List OperatorTypeOp → Problem
  | prob, [] => prob
  | prob, o :: rest => loadOperatorTypes oprKinds (loadOperatorTypeStep oprKinds prob o) rest

/-- One operation of `loadProblem`'s first operation walk: register the
operation (appending fixes its position to document order) and decode its
properties. -/
def loadOperationStep (opKinds : List PropKind) (prob : Problem)
    (op : OperationOp) : Problem :=
  { prob with
    operations := prob.operations ++ [⟨op.operands, op.numResults⟩]
    opProps := fun j =>
      if j = prob.operations.length then loadProps opKinds op.properties (prob.opProps j)
      else prob.opProps j }

/-- The first operation walk of `loadProblem`: register every operation (in
document order, which fixes the problem's node order) and decode its
properties. -/
def loadOperations (opKinds : List PropKind) : Problem → List OperationOp → Problem
  | prob, [] => prob
  | prob, op :: rest => loadOperations opKinds (loadOperationStep opKinds prob op) rest

/-- Insert an auxiliary dependence `(src, dst)` into the store (set
semantics).  Modelled from the spec: the problem owns the *set* of
dependences. -/
def insertAuxDep (prob : Problem) (src dst : Nat) : Problem :=
  { prob with
    auxDeps := fun d => if d = dst then addUnique (prob.auxDeps d) src else prob.auxDeps d }

/-- Process one dependence record of the operation at position `i` in the
second operation walk of `loadProblem`.  A record with a source reference
resolves it (`assert(sourceOp)` makes an unresolved reference fatal),
constructs an auxiliary dependence and inserts it (`assert(succeeded(res))`
makes a rejected insertion — e.g. the name resolving to something that is
not a registered operation — fatal); a record without a source reference
constructs the def-use dependence `&opOp->getOpOperand(idx)`, which is only
meaningful for an in-bounds operand index.  Either way the record's
properties are then decoded onto the dependence. -/
def loadDepRecord (instOp : InstanceOp) (depKinds : List PropKind) (i nOperands : Nat)
    (prob : Problem) (r : DependenceAttr) : Option Problem :=
  match r.sourceRef with
  | some nm =>
    match lookupSymbolIn instOp nm with
    | some (.oper j) =>
      let prob1 := insertAuxDep prob j i
      some { prob1 with
        adepProps := fun d s =>
          if d = i ∧ s = j then loadProps depKinds r.properties (prob1.adepProps d s)
          else prob1.adepProps d s }
    | _ => none
  | none =>
    if r.operandIdx < nOperands then
      some { prob with
        ddepProps := fun d j =>
          if d = i ∧ j = r.operandIdx then loadProps depKinds r.properties (prob.ddepProps d j)
          else prob.ddepProps d j }
    else none

/-- Fold `loadDepRecord` over an operation's dependence records; the first
fatal record aborts the load. -/
def loadDepRecords (instOp : InstanceOp) (depKinds : List PropKind) (i nOperands : Nat) :
    Problem → List DependenceAttr → Option Problem
  | prob, [] => some prob
  | prob, r :: rest =>
    match loadDepRecord instOp depKinds i nOperands prob r with
    | none => none
    | some prob1 => loadDepRecords instOp depKinds i nOperands prob1 rest

/-- The records of one operation (`depsAttr` may be absent). -/
def loadOpDeps (instOp : InstanceOp) (depKinds : List PropKind) (i : Nat)
    (op : OperationOp) (prob : Problem) : Option Problem :=
  match op.dependences with
  | none => some prob
  | some recs => loadDepRecords instOp depKinds i op.operands.length prob recs

/-- The second operation walk of `loadProblem`: operation at position `i`
first, then the rest. -/
def loadDepsPass (instOp : InstanceOp) (depKinds : List PropKind) :
    Nat → Problem → List OperationOp → Option Problem
  | _, prob, [] => some prob
  | i, prob, op :: rest =>
    match loadOpDeps instOp depKinds i op prob with
    | none => none
    | some prob1 => loadDepsPass instOp depKinds (i + 1) prob1 rest

/-- `loadProblem` (Utilities.h): decode the instance properties, walk the
operator types, register all operations (first walk), then resolve and
insert the dependences and their properties (second walk).  A fatal error
anywhere (a C++ `assert` or an out-of-bounds operand access) yields `none`:
no problem is produced. -/
def loadProblem (instOp : InstanceOp)
    (opKinds oprKinds depKinds instKinds : List PropKind) : Option Problem :=
  let p0 : Problem :=
    { emptyProblem with instProps := loadProps instKinds instOp.properties emptyProps }
  let p1 := loadOperatorTypes oprKinds p0 instOp.operatorTypes
  let p2 := loadOperations opKinds p1 instOp.operations
  loadDepsPass instOp depKinds 0 p2 instOp.operations

/-! ### `saveProblem` (Utilities.h) -/

/-- The saver's name table (`DenseMap<Operation *, StringAttr> opNames`),
kept as an association list so that `size()` (= number of entries, keys are
unique) is the list length. -/
abbrev NameTable := List (Nat × String)

/-- Lookup a node's assigned name. -/
def NameTable.lookup (t : NameTable) (k : Nat) : Option String :=
  (List.find? (fun e => e.1 == k) t).map (·.2)

/-- `opNames.count(k)` as a Bool. -/
def NameTable.containsKey (t : NameTable) (k : Nat) : Bool :=
  t.any (fun e => e.1 == k)

/-- `opNames[k] = v`: overwrite an existing entry in place, or append a new
one. -/
def NameTable.insertIU (t : NameTable) (k : Nat) (v : String) : NameTable :=
  if t.containsKey k then t.map (fun e => if e.1 == k then (k, v) else e)
  else t ++ [(k, v)]

/-- Length of the table (the `DenseMap` size, since keys are unique). -/
def NameTable.size (t : NameTable) : Nat :=
  t.length

/-- The inner loop of `saveProblem`'s name assignment pass: for each
dependence of the current operation that is auxiliary and whose source has
no recorded name yet, record the client-provided name if there is one, and
otherwise synthesize `"Op" + <table size>`. -/
def nameAuxStep (nameFn : Nat → Option String) (t : NameTable) : PDep → NameTable
  | .defUse _ => t
  | .aux src =>
    if t.containsKey src then t
    else
      match nameFn src with
      | some nm => t.insertIU src nm
      | none => t.insertIU src ("Op" ++ Nat.repr t.size)

/-- One operation of the name assignment pass: honor the client-provided
name for the operation itself, then scan its dependences for unnamed
auxiliary sources. -/
def nameOpStep (prob : Problem) (nameFn : Nat → Option String) (t : NameTable) (i : Nat) :
    NameTable :=
  let t1 := match nameFn i with
    | some nm => t.insertIU i nm
    | none => t
  (prob.getDependences i).foldl (nameAuxStep nameFn) t1

/-- The name assignment pass of `saveProblem`, over all operations in the
problem's node order. -/
def buildNameTable (prob : Problem) (nameFn : Nat → Option String) : NameTable :=
  (List.range prob.operations.length).foldl (nameOpStep prob nameFn) []

/-- The emission loop constructing one operation's `dependences` attribute:
a def-use dependence with (non-null) encoded properties yields a record at
its destination index with no source name; a def-use dependence without
properties is omitted; an auxiliary dependence always yields a record with
the looked-up source name at the next synthetic slot index (`auxOperandIdx`
starts at the operand count and is incremented per auxiliary record). -/
def emitDepsGo (prob : Problem) (depKinds : List PropKind) (t : NameTable) (i : Nat) :
    Nat → List PDep → List DependenceAttr
  | _, [] => []
  | auxIdx, .defUse j :: rest =>
    match saveProps depKinds (prob.ddepProps i j) with
    | some ps => ⟨j, none, some ps⟩ :: emitDepsGo prob depKinds t i auxIdx rest
    | none => emitDepsGo prob depKinds t i auxIdx rest
  | auxIdx, .aux src :: rest =>
    ⟨auxIdx, some ((t.lookup src).getD ""), saveProps depKinds (prob.adepProps i src)⟩ ::
      emitDepsGo prob depKinds t i (auxIdx + 1) rest

/-- The `dependences` record sequence `saveProblem` emits for the operation
at position `i`. -/
def emitDeps (prob : Problem) (depKinds : List PropKind) (t : NameTable) (i : Nat) :
    List DependenceAttr :=
  emitDepsGo prob depKinds t i (prob.numOperands i) (prob.getDependences i)

/-- The `OperationOp` emitted for the node at position `i`: its assigned
name (if any), its operands mapped 1:1 by the `ValueMapper` (the emitted
instance has the same node order and result counts, so an operand keeps its
`(producer, result)` coordinates), the dependence records (a null attribute
when empty), and the encoded operation properties. -/
def saveOperation (prob : Problem) (opKinds depKinds : List PropKind) (t : NameTable)
    (i : Nat) : OperationOp :=
  let node := prob.operations.getD i default
  let deps := emitDeps prob depKinds t i
  { sym_name := t.lookup i
    operands := node.operands
    numResults := node.numResults
    dependences := if deps.isEmpty then none else some deps
    properties := saveProps opKinds (prob.opProps i) }

/-- `saveProblem` (Utilities.h): emit the instance header with its encoded
properties, one operator-type declaration per operator type in enumeration
order, run the name assignment pass, and emit every operation with its
dependence records and properties. -/
def saveProblem (prob : Problem) (instanceName : Option String) (problemName : String)
    (nameFn : Nat → Option String)
    (opKinds oprKinds depKinds instKinds : List PropKind) : InstanceOp :=
  let t := buildNameTable prob nameFn
  { instanceName := instanceName
    problemName := problemName
    properties := saveProps instKinds prob.instProps
    operatorTypes := prob.operatorTypes.map (fun nm => ⟨nm, saveProps oprKinds (prob.oprProps nm)⟩)
    operations := (List.range prob.operations.length).map (saveOperation prob opKinds depKinds t) }

/-! ### Derived notions used by the theorems -/

/-- Resolve a record's source reference, if any, to the operation it denotes. -/
def resolveRec (instOp : InstanceOp) (r : DependenceAttr) : Option Nat :=
  r.sourceRef.bind fun nm =>
    match lookupSymbolIn instOp nm with
    | some (.oper j) => some j
    | _ => none

/-- The resolved sources of the auxiliary records in `recs`, in record
order. -/
def auxSourcesL (instOp : InstanceOp) (recs : List DependenceAttr) : List Nat :=
  recs.filterMap (resolveRec instOp)

/-- The sources of an operation's auxiliary records, in record order. -/
def auxSources (instOp : InstanceOp) (op : OperationOp) : List Nat :=
  auxSourcesL instOp (op.dependences.getD [])

/-- A dependence record the loader's second walk accepts: a resolvable
source reference, or an in-bounds operand index. -/
def recOk (instOp : InstanceOp) (nOperands : Nat) (r : DependenceAttr) : Prop :=
  match r.sourceRef with
  | some nm => ∃ j, lookupSymbolIn instOp nm = some (.oper j)
  | none => r.operandIdx < nOperands

/-- The `nameFn` that reproduces the document's original operation names. -/
def origNameFn (instOp : InstanceOp) : Nat → Option String :=
  fun i => (instOp.operations.getD i default).sym_name

/-- All symbol names declared in an instance, in document order. -/
def instanceSymbols (instOp : InstanceOp) : List String :=
  instOp.operatorTypes.map OperatorTypeOp.sym_name ++
    instOp.operations.filterMap OperationOp.sym_name

/-- A kind list whose members decode unambiguously and install into distinct
problem properties (the caller obligation from §4.1). -/
def kindsOk (kinds : List PropKind) : Prop :=
  (kinds.map PropKind.tag).Nodup ∧ (kinds.map PropKind.slot).Nodup

/-- Problem isomorphism as the round-trip property (§8) uses it: same nodes
in the same order, same operator types, same dependence set, and the same
property values at every attachment point, as observed through the
recognized kinds. -/
def isoProblem (opKinds oprKinds depKinds instKinds : List PropKind)
    (P' P : Problem) : Prop :=
  P'.operations = P.operations ∧
  P'.operatorTypes = P.operatorTypes ∧
  (∀ d, P'.auxDeps d = P.auxDeps d) ∧
  (∀ k ∈ instKinds, P'.instProps k.slot = P.instProps k.slot) ∧
  (∀ nm, ∀ k ∈ oprKinds, P'.oprProps nm k.slot = P.oprProps nm k.slot) ∧
  (∀ i, ∀ k ∈ opKinds, P'.opProps i k.slot = P.opProps i k.slot) ∧
  (∀ d j, ∀ k ∈ depKinds, P'.ddepProps d j k.slot = P.ddepProps d j k.slot) ∧
  (∀ d s, ∀ k ∈ depKinds, P'.adepProps d s k.slot = P.adepProps d s k.slot)

/-- Fold a list of optional property arrays onto a store, in order (the
accumulated effect of several records' property decodes on one attachment
point). -/
def installOvers (kinds : List PropKind) (l : List (Option (List EncodedProp)))
    (m : PropMap) : PropMap :=
  l.foldl (fun m ps => loadProps kinds ps m) m

/-- The property arrays of the records in `recs` that address the def-use
dependence at operand index `j`. -/
def dataRecPropsL (recs : List DependenceAttr) (j : Nat) : List (Option (List EncodedProp)) :=
  (recs.filter (fun r => r.sourceRef == none && r.operandIdx == j)).map
    DependenceAttr.properties

/-- The property arrays of the records of `op` that address the def-use
dependence at operand index `j`. -/
def dataRecProps (op : OperationOp) (j : Nat) : List (Option (List EncodedProp)) :=
  dataRecPropsL (op.dependences.getD []) j

/-- The property arrays of the records in `recs` whose source reference
resolves to the operation at position `s`. -/
def auxRecPropsToL (instOp : InstanceOp) (recs : List DependenceAttr) (s : Nat) :
    List (Option (List EncodedProp)) :=
  (recs.filter (fun r => resolveRec instOp r == some s)).map DependenceAttr.properties

/-- The property arrays of the records of `op` whose source reference
resolves to the operation at position `s`. -/
def auxRecPropsTo (instOp : InstanceOp) (op : OperationOp) (s : Nat) :
    List (Option (List EncodedProp)) :=
  auxRecPropsToL instOp (op.dependences.getD []) s

/-- The property arrays of the operator-type declarations named `nm`. -/
def oprDeclProps (decls : List OperatorTypeOp) (nm : String) :
    List (Option (List EncodedProp)) :=
  (decls.filter (fun o => o.sym_name == nm)).map OperatorTypeOp.properties

/-- The data records the saver emits for the operation at position `i`: one
per def-use dependence whose encoded properties are non-null, at the edge's
natural slot index, with no source name; def-use edges without properties
are omitted. -/
def dataRecords (prob : Problem) (depKinds : List PropKind) (i : Nat)
    (js : List Nat) : List DependenceAttr :=
  js.filterMap fun j =>
    (saveProps depKinds (prob.ddepProps i j)).map fun ps => ⟨j, none, some ps⟩

/-- The auxiliary records the saver emits for the operation at position `i`:
one per auxiliary dependence, with the looked-up source name, at consecutive
slot indices starting at `c`. -/
def auxRecords (prob : Problem) (depKinds : List PropKind) (t : NameTable) (i : Nat) :
    Nat → List Nat → List DependenceAttr
  | _, [] => []
  | c, s :: ss =>
    ⟨c, some ((t.lookup s).getD ""), saveProps depKinds (prob.adepProps i s)⟩ ::
      auxRecords prob depKinds t i (c + 1) ss

/-- Decimal digit value of a character (inverse of `Nat.digitChar` on
digits). -/
def charVal (c : Char) : Nat :=
  c.toNat - 48

/-- Value of a decimal digit string (inverse of `Nat.toDigits 10`). -/
def digitsVal (l : List Char) : Nat :=
  l.foldl (fun acc c => acc * 10 + charVal c) 0

/-- The invariant of the saver's name table: any entry whose key receives no
name from the client's `nameFn` was synthesized, and its name is `"Op" +
<position>` — the table size at the moment it was appended. -/
def synthInvariant (nameFn : Nat → Option String) (t : NameTable) : Prop :=
  ∀ p e, t[p]? = some e → nameFn e.1 = none → e.2 = "Op" ++ Nat.repr p

/-- The invariant of the saver's name table when every auxiliary source has a
client-provided name: every entry records exactly the client's name for its
key. -/
def namedInv (nameFn : Nat → Option String) (t : NameTable) : Prop :=
  ∀ e ∈ t, nameFn e.1 = some e.2

/-- A small concrete document: one operator type with a property, a named
operation with a property, and a second operation with an auxiliary
dependence (with a property) on the first. -/
def rtDoc : InstanceOp :=
  { instanceName := some "inst"
    problemName := "Problem"
    properties := some [(4, 10)]
    operatorTypes := [⟨"adder", some [(2, 3)]⟩]
    operations :=
      [⟨some "op0", [], 1, none, some [(1, 5)]⟩,
       ⟨none, [], 1, some [⟨0, some "op0", some [(3, 7)]⟩], none⟩] }

/-! ## Theorems -/

/-- Once `lastIdx` has reached `m ≥ nOperands` (an auxiliary record has been
accepted), `OperationOp::verify`'s loop accepts exactly a run of auxiliary
records with consecutive indices `m+1, m+2, ...`. -/
theorem verifyGo_aux_mode (n : Nat) (l : List DependenceAttr) :
    ∀ m : Nat, n ≤ m →
      (verifyGo n (m : Int) l = true ↔
        (∀ r ∈ l, r.sourceRef.isSome) ∧
        l.map DependenceAttr.operandIdx = List.range' (m + 1) l.length) := by
  induction l with
  | nil => intro m _; simp [verifyGo]
  | cons r rest ih =>
    intro m h
    cases hs : r.sourceRef with
    | none =>
      have hfalse : verifyGo n (m : Int) (r :: rest) = false := by
        simp only [verifyGo, hs]
        by_cases hge : (r.operandIdx : Int) ≥ (n : Int)
        · rw [if_pos hge]
        · rw [if_neg hge, if_pos (by omega)]
      rw [hfalse]
      simp only [Bool.false_eq_true, false_iff, not_and]
      intro hall
      have hsome := hall r (List.mem_cons_self r rest)
      rw [hs] at hsome
      simp at hsome
    | some s =>
      have hunfold : verifyGo n (m : Int) (r :: rest) =
          if r.operandIdx = m + 1 then verifyGo n (r.operandIdx : Int) rest else false := by
        simp only [verifyGo, hs]
        by_cases hidx : r.operandIdx = m + 1
        · rw [if_pos hidx, if_neg (by omega), if_neg (by push_neg; omega)]
        · rw [if_neg hidx]
          by_cases hlt : (r.operandIdx : Int) < (n : Int)
          · rw [if_pos hlt]
          · rw [if_neg hlt, if_pos (by omega)]
      rw [hunfold]
      by_cases hidx : r.operandIdx = m + 1
      · rw [if_pos hidx, hidx, ih (m + 1) (by omega)]
        simp only [List.forall_mem_cons, List.map_cons, List.length_cons, List.range'_succ,
          List.cons.injEq, hs, Option.isSome_some, true_and]
        tauto
      · rw [if_neg hidx]
        simp only [Bool.false_eq_true, false_iff, not_and]
        intro _ h2
        rw [List.map_cons, List.length_cons, List.range'_succ] at h2
        injection h2 with h21 _
        exact hidx h21

/-- While no auxiliary record has been seen (`lastIdx < nOperands`),
`OperationOp::verify`'s loop accepts exactly a strictly increasing in-bounds
data prefix (above `lastIdx`) followed by a purely auxiliary run with
consecutive indices starting at `nOperands`. -/
theorem verifyGo_data_mode (n : Nat) (l : List DependenceAttr) :
    ∀ last : Int, last < (n : Int) →
      (verifyGo n last l = true ↔
        (List.Chain (· < ·) last ((dataPart l).map fun r => (r.operandIdx : Int)) ∧
         (∀ r ∈ dataPart l, r.operandIdx < n) ∧
         (∀ r ∈ auxPart l, r.sourceRef.isSome) ∧
         (auxPart l).map DependenceAttr.operandIdx = List.range' n (auxPart l).length)) := by
  induction l with
  | nil => intro last _; simp [verifyGo, dataPart, auxPart]
  | cons r rest ih =>
    intro last hlast
    cases hs : r.sourceRef with
    | none =>
      have hd : dataPart (r :: rest) = r :: dataPart rest := by
        unfold dataPart
        rw [List.takeWhile_cons_of_pos (by simp [hs])]
      have ha : auxPart (r :: rest) = auxPart rest := by
        unfold auxPart
        rw [List.dropWhile_cons_of_pos (by simp [hs])]
      rw [hd, ha]
      simp only [verifyGo, hs, List.map_cons, List.chain_cons, List.forall_mem_cons]
      by_cases hge : (r.operandIdx : Int) ≥ (n : Int)
      · rw [if_pos hge]
        simp only [Bool.false_eq_true, false_iff, not_and]
        intro _ hall
        exact absurd (hall.1) (by omega)
      · rw [if_neg hge]
        by_cases hle : (r.operandIdx : Int) ≤ last
        · rw [if_pos hle]
          simp only [Bool.false_eq_true, false_iff, not_and]
          intro hchain
          exact absurd hchain.1 (by omega)
        · rw [if_neg hle, ih (r.operandIdx : Int) (by omega)]
          constructor
          · rintro ⟨hc, hdata, haux, hrange⟩
            exact ⟨⟨by omega, hc⟩, ⟨by omega, hdata⟩, haux, hrange⟩
          · rintro ⟨⟨_, hc⟩, ⟨_, hdata⟩, haux, hrange⟩
            exact ⟨hc, hdata, haux, hrange⟩
    | some s =>
      have hd : dataPart (r :: rest) = [] := by
        unfold dataPart
        rw [List.takeWhile_cons_of_neg (by simp [hs])]
      have ha : auxPart (r :: rest) = r :: rest := by
        unfold auxPart
        rw [List.dropWhile_cons_of_neg (by simp [hs])]
      rw [hd, ha]
      simp only [verifyGo, hs, List.map_nil, List.forall_mem_cons, List.map_cons,
        List.length_cons, List.range'_succ, List.cons.injEq]
      by_cases hn : r.operandIdx = n
      · rw [if_neg (by omega), if_neg (by push_neg; omega), hn,
          verifyGo_aux_mode n rest n (Nat.le_refl n)]
        constructor
        · rintro ⟨haux, hrange⟩
          exact ⟨List.Chain.nil, by simp, ⟨rfl, haux⟩, rfl, hrange⟩
        · rintro ⟨-, -, ⟨-, haux⟩, -, hrange⟩
          exact ⟨haux, hrange⟩
      · have hfalse : (if (r.operandIdx : Int) < (n : Int) then false
            else if ¬((r.operandIdx : Int) = last + 1 ∨
              ((r.operandIdx : Int) > last ∧ (r.operandIdx : Int) = (n : Int))) then false
            else verifyGo n (r.operandIdx : Int) rest) = false := by
          by_cases hlt : (r.operandIdx : Int) < (n : Int)
          · rw [if_pos hlt]
          · rw [if_neg hlt, if_pos (by omega)]
        rw [hfalse]
        simp only [Bool.false_eq_true, false_iff, not_and]
        intro _ _ _ hh
        exact absurd hh hn

/-- Bridge: the `Int`-valued strict chain starting at `-1` that
`OperationOp::verify` maintains over the data prefix is the same as strict
monotonicity of the `Nat` index list. -/
theorem chain_neg_one_iff_chain' (L : List DependenceAttr) :
    List.Chain (· < ·) (-1 : Int) (L.map fun r => (r.operandIdx : Int)) ↔
      List.Chain' (· < ·) (L.map DependenceAttr.operandIdx) := by
  have hbridge : ∀ (b : Nat) (u : List DependenceAttr),
      List.Chain (· < ·) (b : Int) (u.map fun r => (r.operandIdx : Int)) ↔
        List.Chain (· < ·) b (u.map DependenceAttr.operandIdx) := by
    intro b u
    induction u generalizing b with
    | nil => simp
    | cons c v ih =>
      rw [List.map_cons, List.chain_cons, List.map_cons, List.chain_cons, ih c.operandIdx]
      simp
  cases L with
  | nil => simp
  | cons a t =>
    rw [List.map_cons, List.chain_cons, List.map_cons, hbridge a.operandIdx t]
    constructor
    · rintro ⟨-, hc⟩
      exact hc
    · intro hc
      exact ⟨by omega, hc⟩

/-- Core equivalence between `OperationOp::verify` and the document-form
invariant. -/
theorem verify_iff_invariant_core (op : OperationOp) :
    op.verify = true ↔ op.invariant := by
  unfold OperationOp.verify OperationOp.invariant
  cases op.dependences with
  | none => simp
  | some deps =>
    show verifyGo op.operands.length (-1) deps = true ↔
      invariantDeps op.operands.length deps
    rw [verifyGo_data_mode op.operands.length deps (-1) (by omega)]
    unfold invariantDeps
    rw [chain_neg_one_iff_chain' (dataPart deps)]
    constructor
    · rintro ⟨hc, hdata, haux, hrange⟩
      exact ⟨haux, hc, hdata, hrange⟩
    · rintro ⟨haux, hc, hdata, hrange⟩
      exact ⟨hc, hdata, haux, hrange⟩

/-- C2.  `OperationOp::verify` accepts a `dependences` attribute exactly when
it satisfies the document-form invariant of spec §3: data records have
strictly increasing indices below the operand count, auxiliary records are
not interleaved with them and carry consecutive indices starting exactly at
the operand count; every violating sequence is rejected. -/
theorem verify_iff_invariant (op : OperationOp) :
    op.verify = true ↔ op.invariant :=
  verify_iff_invariant_core op

/-- C10.  For an operation whose `dependences` attribute passes
`OperationOp::verify`, every record without a source name has an operand
index strictly below the operation's operand count — the
`opOp->getOpOperand(depAttr.getOperandIdx())` access in `loadProblem`'s
second walk is in bounds. -/
theorem verify_data_index_in_bounds (op : OperationOp) (deps : List DependenceAttr)
    (hdeps : op.dependences = some deps) (hv : op.verify = true) :
    ∀ r ∈ deps, r.sourceRef = none → r.operandIdx < op.operands.length := by
  rw [verify_iff_invariant_core] at hv
  unfold OperationOp.invariant at hv
  rw [hdeps] at hv
  obtain ⟨haux, -, hdata, -⟩ := hv
  intro r hr hnone
  have hsplit : r ∈ dataPart deps ∨ r ∈ auxPart deps := by
    have happ : dataPart deps ++ auxPart deps = deps := by
      unfold dataPart auxPart
      exact List.takeWhile_append_dropWhile (fun r => r.sourceRef.isNone) deps
    rw [← happ] at hr
    exact List.mem_append.1 hr
  cases hsplit with
  | inl h => exact hdata r h
  | inr h =>
    have hsome := haux r h
    rw [hnone] at hsome
    simp at hsome

/-- Witness for C10 at a concrete verified operation and record. -/
theorem verify_data_index_in_bounds_witness :
    ({ operandIdx := 0, sourceRef := none, properties := none } : DependenceAttr).operandIdx <
      (OperationOp.mk none [(0, 0)] 1 (some [⟨0, none, none⟩]) none).operands.length :=
  verify_data_index_in_bounds _ _ rfl (by decide)
    ⟨0, none, none⟩ (List.mem_singleton.2 rfl) rfl

/-- The parse loop starting at slot `i` materializes, per entry, exactly what
`materializedRec` describes, at consecutive positions. -/
theorem parseDepsGo_eq_enumFrom (entries : List (DepEntry × Option (List EncodedProp))) :
    ∀ i, parseDepsGo i entries = (List.enumFrom i entries).filterMap materializedRec := by
  induction entries with
  | nil => intro i; rfl
  | cons e rest ih =>
    intro i
    obtain ⟨de, props⟩ := e
    cases de with
    | operand =>
      cases props with
      | none => simp [parseDepsGo, List.enumFrom, materializedRec, ih]
      | some ps => simp [parseDepsGo, List.enumFrom, materializedRec, ih]
    | symbol nm => simp [parseDepsGo, List.enumFrom, materializedRec, ih]

/-- C9.  When `OperationOp::parse` decodes a textual dependence list, every
entry consumes exactly one slot index in left-to-right order, and a record
is added for a data-input entry only when it carries a property list, and
always for a symbol-reference entry (see `materializedRec`). -/
theorem parse_materializes (entries : List (DepEntry × Option (List EncodedProp))) :
    parseDependences entries = entries.enum.filterMap materializedRec :=
  parseDepsGo_eq_enumFrom entries 0

/-! ### Property dispatch -/

/-- A value no recognized kind accepts is skipped: the store is unchanged. -/
theorem dispatch_unmatched (kinds : List PropKind) (a : EncodedProp) (m : PropMap)
    (h : ∀ k ∈ kinds, k.accepts a = false) : dispatchProp kinds a m = m := by
  unfold dispatchProp
  rw [List.find?_eq_none.2 (fun x hx => by simp [h x hx])]

/-- C6.  First-match dispatch: when a property value is decoded, the kinds
are tried in list order; the kinds listed before the first accepting one are
skipped, that kind installs the value, and the result does not depend on the
kinds listed after it — in particular, if a kind in `rest` could also decode
the value, the earlier one wins. -/
theorem dispatch_first_match (pre : List PropKind) (k : PropKind) (rest : List PropKind)
    (a : EncodedProp) (m : PropMap)
    (hpre : ∀ k' ∈ pre, k'.accepts a = false) (hk : k.accepts a = true) :
    dispatchProp (pre ++ k :: rest) a m = k.install a m := by
  unfold dispatchProp
  rw [List.find?_append, List.find?_eq_none.2 (fun x hx => by simp [hpre x hx])]
  rw [Option.none_or]
  simp only [List.find?_cons, hk]

/-- Witness for C6: two kinds accepting the same tag, the first one listed
(installing at slot 1) wins over the later one (slot 2). -/
theorem dispatch_first_match_witness :
    dispatchProp [⟨1, 0⟩, ⟨0, 1⟩, ⟨0, 2⟩] (0, 5) emptyProps =
      PropKind.install ⟨0, 1⟩ (0, 5) emptyProps :=
  dispatch_first_match [⟨1, 0⟩] ⟨0, 1⟩ [⟨0, 2⟩] (0, 5) emptyProps (by decide) (by decide)

/-- C4 counterexample: a document carrying an encoded property value that no
recognized kind accepts loads *successfully* — the `TypeSwitch` in the
property loaders has no default case, so the value is silently dropped
(nothing is installed), not reported as a fatal error. -/
theorem load_unrecognized_prop_not_fatal :
    ∃ P, loadProblem
        { instanceName := none, problemName := "P", properties := some [(7, 1)],
          operatorTypes := [], operations := [] }
        [] [] [] [{ tag := 0, slot := 0 }] = some P ∧
      P.instProps 0 = none ∧ P.instProps 7 = none :=
  ⟨_, rfl, rfl, rfl⟩

/-- C4 amended: an encoded property value accepted by none of the recognized
kinds is silently skipped by the property loaders — it installs nothing and
decoding simply continues with the remaining values. -/
theorem loadProps_unmatched_skipped (kinds : List PropKind) (a : EncodedProp)
    (l : List EncodedProp) (m : PropMap)
    (h : ∀ k ∈ kinds, k.accepts a = false) :
    loadProps kinds (some (a :: l)) m = loadProps kinds (some l) m := by
  show installSeq kinds (a :: l) m = installSeq kinds l m
  unfold installSeq
  rw [List.foldl_cons, dispatch_unmatched kinds a m h]

/-- Witness for the amended C4. -/
theorem loadProps_unmatched_skipped_witness :
    loadProps [⟨0, 0⟩] (some [(7, 1), (0, 2)]) emptyProps =
      loadProps [⟨0, 0⟩] (some [(0, 2)]) emptyProps :=
  loadProps_unmatched_skipped [⟨0, 0⟩] (7, 1) [(0, 2)] emptyProps (by decide)

/-! ### Property round trip -/

theorem emitSeq_cons_none (k : PropKind) (ks : List PropKind) (m : PropMap)
    (hq : k.query m = none) : emitSeq (k :: ks) m = emitSeq ks m := by
  unfold emitSeq
  rw [List.filterMap_cons, hq]

theorem emitSeq_cons_some (k : PropKind) (ks : List PropKind) (m : PropMap)
    (a : EncodedProp) (hq : k.query m = some a) :
    emitSeq (k :: ks) m = a :: emitSeq ks m := by
  unfold emitSeq
  rw [List.filterMap_cons, hq]

theorem installSeq_cons (kinds : List PropKind) (a : EncodedProp) (l : List EncodedProp)
    (m : PropMap) : installSeq kinds (a :: l) m = installSeq kinds l (dispatchProp kinds a m) :=
  rfl

/-- With unambiguous tags, dispatching a value a recognized kind itself
emitted finds exactly that kind. -/
theorem find_accepting_self (kinds : List PropKind)
    (htags : (kinds.map PropKind.tag).Nodup) (k : PropKind) (hk : k ∈ kinds) (v : Nat) :
    kinds.find? (fun k' => k'.accepts (k.tag, v)) = some k := by
  induction kinds with
  | nil => cases hk
  | cons k0 rest ih =>
    rw [List.map_cons, List.nodup_cons] at htags
    rcases List.mem_cons.1 hk with rfl | hmem
    · simp [List.find?_cons, PropKind.accepts]
    · have hne : k0.accepts (k.tag, v) = false := by
        unfold PropKind.accepts
        simp only [beq_eq_false_iff_ne, ne_eq]
        intro hEq
        exact htags.1 (hEq ▸ List.mem_map_of_mem PropKind.tag hmem)
      simp only [List.find?_cons, hne]
      exact ih htags.2 hmem

/-- Dispatching an emitted value `(k.tag, v)` installs it through `k`. -/
theorem dispatch_emitted (kinds : List PropKind)
    (htags : (kinds.map PropKind.tag).Nodup) (k : PropKind) (hk : k ∈ kinds)
    (v : Nat) (m0 : PropMap) :
    dispatchProp kinds (k.tag, v) m0 = k.install (k.tag, v) m0 := by
  unfold dispatchProp
  rw [find_accepting_self kinds htags k hk v]

/-- Reinstalling the sequence emitted by the kinds `ks` writes only their
slots. -/
theorem installSeq_emitSeq_untouched (kinds : List PropKind)
    (htags : (kinds.map PropKind.tag).Nodup) (ks : List PropKind) :
    ∀ (m : PropMap) (m0 : PropMap) (s : Nat),
      (∀ k ∈ ks, k ∈ kinds) → s ∉ ks.map PropKind.slot →
      installSeq kinds (emitSeq ks m) m0 s = m0 s := by
  induction ks with
  | nil => intro m m0 s _ _; rfl
  | cons k0 rest ih =>
    intro m m0 s hsub hs
    rw [List.map_cons, List.mem_cons] at hs
    push_neg at hs
    have hsub' : ∀ k ∈ rest, k ∈ kinds := fun k hk => hsub k (List.mem_cons_of_mem _ hk)
    cases hm : m k0.slot with
    | none =>
      have hq : k0.query m = none := by unfold PropKind.query; rw [hm]; rfl
      rw [emitSeq_cons_none k0 rest m hq]
      exact ih m m0 s hsub' hs.2
    | some v =>
      have hq : k0.query m = some (k0.tag, v) := by unfold PropKind.query; rw [hm]; rfl
      rw [emitSeq_cons_some k0 rest m (k0.tag, v) hq, installSeq_cons,
        dispatch_emitted kinds htags k0 (hsub k0 (List.mem_cons_self k0 rest)) v m0]
      rw [ih m _ s hsub' hs.2]
      unfold PropKind.install
      rw [if_neg hs.1]

/-- Reinstalling the emitted sequence restores, at each emitting kind's slot,
exactly the stored value (or leaves the base store alone when the kind had
nothing to emit). -/
theorem installSeq_emitSeq_mem (kinds : List PropKind)
    (htags : (kinds.map PropKind.tag).Nodup) (ks : List PropKind) :
    ∀ (m : PropMap) (m0 : PropMap),
      (∀ k ∈ ks, k ∈ kinds) → (ks.map PropKind.slot).Nodup →
      ∀ k ∈ ks,
        installSeq kinds (emitSeq ks m) m0 k.slot =
          match m k.slot with
          | none => m0 k.slot
          | some v => some v := by
  induction ks with
  | nil => intro m m0 _ _ k hk; cases hk
  | cons k0 rest ih =>
    intro m m0 hsub hnd k hk
    rw [List.map_cons, List.nodup_cons] at hnd
    have hsub' : ∀ k ∈ rest, k ∈ kinds := fun k hk => hsub k (List.mem_cons_of_mem _ hk)
    rcases List.mem_cons.1 hk with rfl | hmem
    · cases hm : m k.slot with
      | none =>
        have hq : k.query m = none := by unfold PropKind.query; rw [hm]; rfl
        rw [emitSeq_cons_none k rest m hq]
        exact installSeq_emitSeq_untouched kinds htags rest m m0 k.slot hsub' hnd.1
      | some v =>
        have hq : k.query m = some (k.tag, v) := by unfold PropKind.query; rw [hm]; rfl
        rw [emitSeq_cons_some k rest m (k.tag, v) hq, installSeq_cons,
          dispatch_emitted kinds htags k (hsub k (List.mem_cons_self k rest)) v m0]
        rw [installSeq_emitSeq_untouched kinds htags rest m _ k.slot hsub' hnd.1]
        unfold PropKind.install
        rw [if_pos rfl]
    · have hslot : k0.slot ≠ k.slot := by
        intro hEq
        exact hnd.1 (hEq ▸ List.mem_map_of_mem PropKind.slot hmem)
      cases hm : m k0.slot with
      | none =>
        have hq : k0.query m = none := by unfold PropKind.query; rw [hm]; rfl
        rw [emitSeq_cons_none k0 rest m hq]
        exact ih m m0 hsub' hnd.2 k hmem
      | some v =>
        have hq : k0.query m = some (k0.tag, v) := by unfold PropKind.query; rw [hm]; rfl
        rw [emitSeq_cons_some k0 rest m (k0.tag, v) hq, installSeq_cons,
          dispatch_emitted kinds htags k0 (hsub k0 (List.mem_cons_self k0 rest)) v m0]
        rw [ih m _ hsub' hnd.2 k hmem]
        cases m k.slot with
        | none =>
          unfold PropKind.install
          rw [if_neg (Ne.symm hslot)]
        | some w => rfl

/-- If a save produced no attribute, every recognized slot was empty. -/
theorem saveProps_none (kinds : List PropKind) (m : PropMap)
    (h : saveProps kinds m = none) : ∀ k ∈ kinds, m k.slot = none := by
  intro k hk
  unfold saveProps at h
  by_cases he : (emitSeq kinds m).isEmpty
  · rw [List.isEmpty_iff] at he
    have : k.query m = none := by
      have hmem := List.filterMap_eq_nil_iff.1 he
      exact hmem k hk
    unfold PropKind.query at this
    cases hm : m k.slot with
    | none => rfl
    | some v => rw [hm] at this; simp at this
  · rw [if_neg he] at h
    cases h

/-- The save-then-load property round trip: with an unambiguously decodable
kind list installing into distinct problem properties, re-decoding the saved
sequence into a fresh store reproduces every recognized property value. -/
theorem loadProps_saveProps_slot (kinds : List PropKind) (hok : kindsOk kinds)
    (m : PropMap) (k : PropKind) (hk : k ∈ kinds) :
    loadProps kinds (saveProps kinds m) emptyProps k.slot = m k.slot := by
  obtain ⟨htags, hslots⟩ := hok
  unfold saveProps
  by_cases he : (emitSeq kinds m).isEmpty
  · rw [if_pos he]
    show emptyProps k.slot = m k.slot
    have hnone : m k.slot = none := by
      apply saveProps_none kinds m _ k hk
      unfold saveProps
      rw [if_pos he]
    rw [hnone]; rfl
  · rw [if_neg he]
    show installSeq kinds (emitSeq kinds m) emptyProps k.slot = m k.slot
    rw [installSeq_emitSeq_mem kinds htags kinds m emptyProps (fun k hk => hk) hslots k hk]
    cases m k.slot with
    | none => rfl
    | some v => rfl

/-! ### Injectivity of the decimal rendering used for synthesized names -/

theorem charVal_digitChar : ∀ d, d < 10 → charVal (Nat.digitChar d) = d := by decide

theorem toDigitsCore_succ (b f n : Nat) (ds : List Char) :
    Nat.toDigitsCore b (f + 1) n ds =
      if n / b = 0 then Nat.digitChar (n % b) :: ds
      else Nat.toDigitsCore b f (n / b) (Nat.digitChar (n % b) :: ds) := rfl

theorem toDigitsCore_append (b : Nat) :
    ∀ (fuel n : Nat) (ds : List Char),
      Nat.toDigitsCore b fuel n ds = Nat.toDigitsCore b fuel n [] ++ ds := by
  intro fuel
  induction fuel with
  | zero => intro n ds; rfl
  | succ f ih =>
    intro n ds
    rw [toDigitsCore_succ, toDigitsCore_succ]
    by_cases h : n / b = 0
    · rw [if_pos h, if_pos h]
      rfl
    · rw [if_neg h, if_neg h, ih (n / b) (Nat.digitChar (n % b) :: ds),
        ih (n / b) [Nat.digitChar (n % b)], List.append_assoc]
      rfl

theorem toDigitsCore_fuel (b : Nat) (hb : 1 < b) :
    ∀ (fuel fuel' n : Nat), n < fuel → n < fuel' →
      Nat.toDigitsCore b fuel n [] = Nat.toDigitsCore b fuel' n [] := by
  intro fuel
  induction fuel with
  | zero => intro fuel' n h _; exact absurd h (Nat.not_lt_zero n)
  | succ f ih =>
    intro fuel' n h h'
    cases fuel' with
    | zero => exact absurd h' (Nat.not_lt_zero n)
    | succ f' =>
      rw [toDigitsCore_succ, toDigitsCore_succ]
      by_cases h0 : n / b = 0
      · rw [if_pos h0, if_pos h0]
      · rw [if_neg h0, if_neg h0,
          toDigitsCore_append b f (n / b) [Nat.digitChar (n % b)],
          toDigitsCore_append b f' (n / b) [Nat.digitChar (n % b)]]
        have hdiv : n / b < n := by
          apply Nat.div_lt_self _ hb
          by_contra hn
          push_neg at hn
          interval_cases n
          simp at h0
        rw [ih f' (n / b) (Nat.lt_of_lt_of_le hdiv (by omega))
          (Nat.lt_of_lt_of_le hdiv (by omega))]

theorem digitsVal_toDigits (n : Nat) : digitsVal (Nat.toDigits 10 n) = n := by
  induction n using Nat.strong_induction_on with
  | _ n ih =>
    unfold Nat.toDigits
    rw [toDigitsCore_succ]
    by_cases h0 : n / 10 = 0
    · rw [if_pos h0]
      unfold digitsVal
      rw [List.foldl_cons, List.foldl_nil, charVal_digitChar (n % 10) (by omega)]
      omega
    · rw [if_neg h0,
        toDigitsCore_append 10 n (n / 10) [Nat.digitChar (n % 10)]]
      have hfuel : Nat.toDigitsCore 10 n (n / 10) [] = Nat.toDigits 10 (n / 10) := by
        unfold Nat.toDigits
        exact toDigitsCore_fuel 10 (by omega) n (n / 10 + 1) (n / 10) (by omega) (by omega)
      rw [hfuel]
      unfold digitsVal
      rw [List.foldl_append, List.foldl_cons, List.foldl_nil]
      have hval := ih (n / 10) (by omega)
      unfold digitsVal at hval
      rw [hval, charVal_digitChar (n % 10) (by omega)]
      omega

theorem natRepr_injective (a b : Nat) (h : Nat.repr a = Nat.repr b) : a = b := by
  have hdata : Nat.toDigits 10 a = Nat.toDigits 10 b := by
    have hd := congrArg String.data h
    unfold Nat.repr at hd
    simpa [List.asString] using hd
  have hval := congrArg digitsVal hdata
  rwa [digitsVal_toDigits, digitsVal_toDigits] at hval

/-- The synthesized name scheme `"Op" + <counter>` is injective. -/
theorem opName_injective (a b : Nat)
    (h : "Op" ++ Nat.repr a = "Op" ++ Nat.repr b) : a = b := by
  apply natRepr_injective
  have hdata := congrArg String.data h
  rw [String.data_append, String.data_append] at hdata
  have hcancel := List.append_cancel_left hdata
  cases hra : Nat.repr a with
  | mk la =>
    cases hrb : Nat.repr b with
    | mk lb =>
      rw [hra, hrb] at hcancel
      simp only at hcancel
      rw [hcancel]

/-! ### The saver's name assignment pass -/

/-- Honoring a client-provided name preserves the synthesized-name
invariant. -/
theorem synthInv_insert_named (nameFn : Nat → Option String) (t : NameTable)
    (k : Nat) (v : String) (hv : nameFn k = some v)
    (h : synthInvariant nameFn t) : synthInvariant nameFn (t.insertIU k v) := by
  intro p e hpe hnone
  unfold NameTable.insertIU at hpe
  by_cases hc : t.containsKey k = true
  · rw [if_pos hc] at hpe
    rw [List.getElem?_map] at hpe
    cases he0 : t[p]? with
    | none => rw [he0] at hpe; cases hpe
    | some e0 =>
      rw [he0] at hpe
      simp only [Option.map_some'] at hpe
      by_cases hk : e0.1 == k
      · rw [if_pos hk] at hpe
        injection hpe with hpe
        rw [← hpe] at hnone
        rw [hv] at hnone
        cases hnone
      · rw [if_neg hk] at hpe
        injection hpe with hpe
        exact h p e (hpe ▸ he0) hnone
  · rw [if_neg hc] at hpe
    by_cases hp : p < t.length
    · rw [List.getElem?_append_left hp] at hpe
      exact h p e hpe hnone
    · have hpe' : e = (k, v) := by
        rw [List.getElem?_append_right (Nat.le_of_not_lt hp)] at hpe
        cases hq : p - t.length with
        | zero => rw [hq] at hpe; injection hpe with hpe; exact hpe.symm
        | succ q => rw [hq] at hpe; simp at hpe
      rw [hpe'] at hnone
      rw [hv] at hnone
      cases hnone

/-- Synthesizing `"Op" + <table size>` for an absent key preserves the
invariant: the new entry sits exactly at position `t.length`. -/
theorem synthInv_insert_synth (nameFn : Nat → Option String) (t : NameTable)
    (k : Nat) (hc : ¬t.containsKey k = true)
    (h : synthInvariant nameFn t) :
    synthInvariant nameFn (t.insertIU k ("Op" ++ Nat.repr t.size)) := by
  intro p e hpe hnone
  unfold NameTable.insertIU at hpe
  rw [if_neg hc] at hpe
  by_cases hp : p < t.length
  · rw [List.getElem?_append_left hp] at hpe
    exact h p e hpe hnone
  · have hpe' : e = (k, "Op" ++ Nat.repr t.size) ∧ p = t.length := by
      rw [List.getElem?_append_right (Nat.le_of_not_lt hp)] at hpe
      cases hq : p - t.length with
      | zero =>
        rw [hq] at hpe
        injection hpe with hpe
        exact ⟨hpe.symm, by omega⟩
      | succ q => rw [hq] at hpe; simp at hpe
    rw [hpe'.1, hpe'.2]
    rfl

/-- One dependence step of the name pass preserves the invariant. -/
theorem synthInv_nameAuxStep (nameFn : Nat → Option String) (t : NameTable)
    (d : PDep) (h : synthInvariant nameFn t) :
    synthInvariant nameFn (nameAuxStep nameFn t d) := by
  cases d with
  | defUse j => exact h
  | aux src =>
    simp only [nameAuxStep]
    by_cases hc : t.containsKey src = true
    · rw [if_pos hc]; exact h
    · rw [if_neg hc]
      cases hn : nameFn src with
      | some nm => exact synthInv_insert_named nameFn t src nm hn h
      | none => exact synthInv_insert_synth nameFn t src hc h

/-- Folding dependence steps preserves the invariant. -/
theorem synthInv_foldl_steps (nameFn : Nat → Option String) (ds : List PDep) :
    ∀ t, synthInvariant nameFn t →
      synthInvariant nameFn (ds.foldl (nameAuxStep nameFn) t) := by
  induction ds with
  | nil => intro t h; exact h
  | cons d rest ih => intro t h; exact ih _ (synthInv_nameAuxStep nameFn t d h)

/-- One operation of the name pass preserves the invariant. -/
theorem synthInv_nameOpStep (prob : Problem) (nameFn : Nat → Option String) (i : Nat) :
    ∀ t, synthInvariant nameFn t →
      synthInvariant nameFn (nameOpStep prob nameFn t i) := by
  intro t h
  unfold nameOpStep
  apply synthInv_foldl_steps
  cases hn : nameFn i with
  | some nm => exact synthInv_insert_named nameFn t i nm hn h
  | none => exact h

/-- The whole name pass establishes the invariant. -/
theorem synthInv_buildNameTable (prob : Problem) (nameFn : Nat → Option String) :
    synthInvariant nameFn (buildNameTable prob nameFn) := by
  unfold buildNameTable
  have hgen : ∀ (is : List Nat) (t : NameTable), synthInvariant nameFn t →
      synthInvariant nameFn (is.foldl (nameOpStep prob nameFn) t) := by
    intro is
    induction is with
    | nil => intro t h; exact h
    | cons i rest ih => intro t h; exact ih _ (synthInv_nameOpStep prob nameFn i t h)
  exact hgen _ [] (by intro p e hpe _; simp at hpe)

/-- C3 counterexample: the synthesized-name scheme `"Op" + <table size>` can
collide with a caller-supplied name recorded in the same save call.  In a
problem with three nodes where the client names node 0 `"Op1"` and node 2
has an auxiliary dependence from the unnamed node 1, the name pass
synthesizes exactly `"Op1"` for node 1. -/
theorem save_name_collision :
    NameTable.lookup
        (buildNameTable
          { operatorTypes := []
            operations := [⟨[], 0⟩, ⟨[], 0⟩, ⟨[], 0⟩]
            auxDeps := fun d => if d = 2 then [1] else []
            instProps := emptyProps
            oprProps := fun _ => emptyProps
            opProps := fun _ => emptyProps
            ddepProps := fun _ _ => emptyProps
            adepProps := fun _ _ => emptyProps }
          (fun i => if i = 0 then some "Op1" else none)) 1 = some "Op1" ∧
    (fun i : Nat => if i = 0 then some "Op1" else none) 0 = some "Op1" ∧
    (fun i : Nat => if i = 0 then some "Op1" else none) 1 = none := by
  refine ⟨?_, rfl, rfl⟩
  decide

/-- C3 amended: the synthesized names assigned in one save call are pairwise
distinct (each records the table size at its creation, and sizes strictly
grow), but they are not in general distinct from caller-supplied names (see
the counterexample). -/
theorem synthesized_names_distinct (prob : Problem) (nameFn : Nat → Option String)
    (p1 p2 : Nat) (e1 e2 : Nat × String)
    (h1 : (buildNameTable prob nameFn)[p1]? = some e1)
    (h2 : (buildNameTable prob nameFn)[p2]? = some e2)
    (hne : p1 ≠ p2) (hn1 : nameFn e1.1 = none) (hn2 : nameFn e2.1 = none) :
    e1.2 ≠ e2.2 := by
  have hinv := synthInv_buildNameTable prob nameFn
  rw [hinv p1 e1 h1 hn1, hinv p2 e2 h2 hn2]
  intro hEq
  exact hne (opName_injective p1 p2 hEq)

/-- Witness for the amended C3: a problem with two unnamed auxiliary sources
gets two distinct synthesized names. -/
theorem synthesized_names_distinct_witness :
    ((1, "Op0") : Nat × String).2 ≠ ((2, "Op1") : Nat × String).2 :=
  synthesized_names_distinct
    { operatorTypes := []
      operations := [⟨[], 0⟩, ⟨[], 0⟩, ⟨[], 0⟩]
      auxDeps := fun d => if d = 0 then [1, 2] else []
      instProps := emptyProps
      oprProps := fun _ => emptyProps
      opProps := fun _ => emptyProps
      ddepProps := fun _ _ => emptyProps
      adepProps := fun _ _ => emptyProps }
    (fun _ => none) 0 1 (1, "Op0") (2, "Op1") (by decide) (by decide)
    (by decide) rfl rfl

/-! ### The saver's emission pass -/

/-- The emission loop on the def-use part of the dependence enumeration:
records are produced exactly as `dataRecords` describes, without touching
the auxiliary slot counter. -/
theorem emitDepsGo_defUse (prob : Problem) (dk : List PropKind) (t : NameTable)
    (i : Nat) (js : List Nat) :
    ∀ (c : Nat) (rest : List PDep),
      emitDepsGo prob dk t i c (js.map PDep.defUse ++ rest) =
        dataRecords prob dk i js ++ emitDepsGo prob dk t i c rest := by
  induction js with
  | nil => intro c rest; rfl
  | cons j js ih =>
    intro c rest
    rw [List.map_cons, List.cons_append]
    show (match saveProps dk (prob.ddepProps i j) with
      | some ps => (⟨j, none, some ps⟩ : DependenceAttr) ::
          emitDepsGo prob dk t i c (js.map PDep.defUse ++ rest)
      | none => emitDepsGo prob dk t i c (js.map PDep.defUse ++ rest)) = _
    unfold dataRecords
    rw [List.filterMap_cons]
    cases hs : saveProps dk (prob.ddepProps i j) with
    | none =>
      have hrec := ih c rest
      unfold dataRecords at hrec
      rw [hrec]
      rfl
    | some ps =>
      have hrec := ih c rest
      unfold dataRecords at hrec
      rw [hrec]
      rfl

/-- The emission loop on the auxiliary part: one record per auxiliary
dependence, consecutive slot indices. -/
theorem emitDepsGo_aux (prob : Problem) (dk : List PropKind) (t : NameTable)
    (i : Nat) (srcs : List Nat) :
    ∀ c, emitDepsGo prob dk t i c (srcs.map PDep.aux) =
      auxRecords prob dk t i c srcs := by
  induction srcs with
  | nil => intro c; rfl
  | cons src srcs ih =>
    intro c
    rw [List.map_cons]
    show (⟨c, some ((t.lookup src).getD ""), saveProps dk (prob.adepProps i src)⟩ :
        DependenceAttr) :: emitDepsGo prob dk t i (c + 1) (srcs.map PDep.aux) = _
    rw [ih (c + 1)]
    rfl

/-- The record sequence the saver emits: the property-carrying def-use
records at their natural slot indices, followed by one auxiliary record per
auxiliary dependence at consecutive synthetic indices starting at the
operand count. -/
theorem emitDeps_eq (prob : Problem) (dk : List PropKind) (t : NameTable) (i : Nat) :
    emitDeps prob dk t i =
      dataRecords prob dk i (List.range (prob.numOperands i)) ++
        auxRecords prob dk t i (prob.numOperands i) (prob.auxDeps i) := by
  unfold emitDeps Problem.getDependences
  rw [emitDepsGo_defUse prob dk t i (List.range (prob.numOperands i))
    (prob.numOperands i) ((prob.auxDeps i).map PDep.aux)]
  rw [emitDepsGo_aux prob dk t i (prob.auxDeps i) (prob.numOperands i)]

theorem dataRecords_sourceRef (prob : Problem) (dk : List PropKind) (i : Nat)
    (js : List Nat) : ∀ r ∈ dataRecords prob dk i js, r.sourceRef = none := by
  induction js with
  | nil => intro r hr; cases hr
  | cons j js ih =>
    intro r hr
    unfold dataRecords at hr
    rw [List.filterMap_cons] at hr
    cases hs : saveProps dk (prob.ddepProps i j) with
    | none =>
      rw [hs] at hr
      exact ih r hr
    | some ps =>
      rw [hs] at hr
      rcases List.mem_cons.1 hr with rfl | hr'
      · rfl
      · exact ih r hr'

theorem dataRecords_map_idx (prob : Problem) (dk : List PropKind) (i : Nat)
    (js : List Nat) :
    (dataRecords prob dk i js).map DependenceAttr.operandIdx =
      js.filter (fun j => (saveProps dk (prob.ddepProps i j)).isSome) := by
  induction js with
  | nil => rfl
  | cons j js ih =>
    unfold dataRecords
    rw [List.filterMap_cons, List.filter_cons]
    cases hs : saveProps dk (prob.ddepProps i j) with
    | none =>
      unfold dataRecords at ih
      simp only [hs, Option.map_none', Option.isSome_none, Bool.false_eq_true, if_false]
      exact ih
    | some ps =>
      unfold dataRecords at ih
      simp only [hs, Option.map_some', Option.isSome_some, if_true, List.map_cons]
      rw [ih]

theorem auxRecords_sourceRef (prob : Problem) (dk : List PropKind) (t : NameTable)
    (i : Nat) (srcs : List Nat) :
    ∀ c, ∀ r ∈ auxRecords prob dk t i c srcs, r.sourceRef.isSome := by
  induction srcs with
  | nil => intro c r hr; cases hr
  | cons src srcs ih =>
    intro c r hr
    unfold auxRecords at hr
    rcases List.mem_cons.1 hr with rfl | hr'
    · rfl
    · exact ih (c + 1) r hr'

theorem auxRecords_map_idx (prob : Problem) (dk : List PropKind) (t : NameTable)
    (i : Nat) (srcs : List Nat) :
    ∀ c, (auxRecords prob dk t i c srcs).map DependenceAttr.operandIdx =
      List.range' c srcs.length := by
  induction srcs with
  | nil => intro c; rfl
  | cons src srcs ih =>
    intro c
    unfold auxRecords
    rw [List.map_cons, ih (c + 1), List.length_cons, List.range'_succ]

/-- Splitting a record list into an all-data prefix and an all-auxiliary
suffix identifies the two parts. -/
theorem dataPart_auxPart_append (l1 l2 : List DependenceAttr)
    (h1 : ∀ r ∈ l1, r.sourceRef = none) (h2 : ∀ r ∈ l2, r.sourceRef.isSome) :
    dataPart (l1 ++ l2) = l1 ∧ auxPart (l1 ++ l2) = l2 := by
  induction l1 with
  | nil =>
    rw [List.nil_append]
    cases l2 with
    | nil => exact ⟨rfl, rfl⟩
    | cons r t =>
      have hr := h2 r (List.mem_cons_self r t)
      constructor
      · unfold dataPart
        rw [List.takeWhile_cons_of_neg]
        simp [Option.isNone_iff_eq_none]
        intro hnone
        rw [hnone] at hr
        cases hr
      · unfold auxPart
        rw [List.dropWhile_cons_of_neg]
        simp [Option.isNone_iff_eq_none]
        intro hnone
        rw [hnone] at hr
        cases hr
  | cons r t ih =>
    have hr := h1 r (List.mem_cons_self r t)
    have iht := ih (fun r' hr' => h1 r' (List.mem_cons_of_mem _ hr'))
    rw [List.cons_append]
    constructor
    · unfold dataPart
      rw [List.takeWhile_cons_of_pos (by simp [hr])]
      have := iht.1
      unfold dataPart at this
      rw [this]
    · unfold auxPart
      rw [List.dropWhile_cons_of_pos (by simp [hr])]
      exact iht.2

theorem dataRecords_idx_mem (prob : Problem) (dk : List PropKind) (i : Nat)
    (js : List Nat) : ∀ r ∈ dataRecords prob dk i js, r.operandIdx ∈ js := by
  intro r hr
  have hmap : r.operandIdx ∈ (dataRecords prob dk i js).map DependenceAttr.operandIdx :=
    List.mem_map_of_mem _ hr
  rw [dataRecords_map_idx] at hmap
  exact List.mem_of_mem_filter hmap

/-- C8.  The saver's emission pass produces, for every operation, exactly
the records `dataRecords`/`auxRecords` describe — a record for a def-use
edge only when it has encoded properties (at its natural slot index, with no
source name; edges without properties are omitted), and auxiliary records
with consecutive slot indices starting at the operand count, in dependence
enumeration order — and the emitted operation passes `OperationOp::verify`.
-/
theorem save_reproduces_invariant (prob : Problem) (opKinds depKinds : List PropKind)
    (t : NameTable) (i : Nat) :
    emitDeps prob depKinds t i =
      dataRecords prob depKinds i (List.range (prob.numOperands i)) ++
        auxRecords prob depKinds t i (prob.numOperands i) (prob.auxDeps i) ∧
    (saveOperation prob opKinds depKinds t i).verify = true := by
  refine ⟨emitDeps_eq prob depKinds t i, ?_⟩
  rw [verify_iff_invariant_core]
  unfold OperationOp.invariant saveOperation
  by_cases he : (emitDeps prob depKinds t i).isEmpty
  · simp only [he, if_true]
  · simp only [he, Bool.false_eq_true, if_false]
    have hsplit := dataPart_auxPart_append
      (dataRecords prob depKinds i (List.range (prob.numOperands i)))
      (auxRecords prob depKinds t i (prob.numOperands i) (prob.auxDeps i))
      (dataRecords_sourceRef prob depKinds i (List.range (prob.numOperands i)))
      (auxRecords_sourceRef prob depKinds t i (prob.auxDeps i) (prob.numOperands i))
    unfold invariantDeps
    rw [emitDeps_eq prob depKinds t i, hsplit.1, hsplit.2]
    refine ⟨auxRecords_sourceRef prob depKinds t i (prob.auxDeps i) (prob.numOperands i),
      ?_, ?_, ?_⟩
    · rw [dataRecords_map_idx]
      exact List.Pairwise.chain'
        (List.Pairwise.filter _ (List.pairwise_lt_range (prob.numOperands i)))
    · intro r hr
      have := dataRecords_idx_mem prob depKinds i (List.range (prob.numOperands i)) r hr
      have hlt := List.mem_range.1 this
      show r.operandIdx < (prob.operations.getD i default).operands.length
      exact hlt
    · rw [auxRecords_map_idx prob depKinds t i (prob.auxDeps i) (prob.numOperands i)]
      have hlen : (auxRecords prob depKinds t i (prob.numOperands i)
          (prob.auxDeps i)).length = (prob.auxDeps i).length := by
        have := congrArg List.length
          (auxRecords_map_idx prob depKinds t i (prob.auxDeps i) (prob.numOperands i))
        rwa [List.length_map, List.length_range'] at this
      rw [hlen]
      rfl

/-! ### The loader's dependence walk -/

theorem resolveRec_none (D : InstanceOp) (r : DependenceAttr) (hs : r.sourceRef = none) :
    resolveRec D r = none := by
  unfold resolveRec
  rw [hs]
  rfl

theorem resolveRec_some (D : InstanceOp) (r : DependenceAttr) (nm : String)
    (hs : r.sourceRef = some nm) (j : Nat)
    (hl : lookupSymbolIn D nm = some (.oper j)) : resolveRec D r = some j := by
  unfold resolveRec
  rw [hs]
  show (match lookupSymbolIn D nm with
    | some (.oper j) => some j
    | _ => none) = some j
  rw [hl]

/-- A successful dependence-record step is one of exactly two shapes: a data
record (in-bounds index, installs dependence properties on the def-use edge)
or an auxiliary record (resolvable source, inserts the dependence and
installs its properties). -/
theorem loadDepRecord_shape (D : InstanceOp) (dk : List PropKind) (i n : Nat)
    (prob : Problem) (r : DependenceAttr) (prob1 : Problem)
    (h : loadDepRecord D dk i n prob r = some prob1) :
    (r.sourceRef = none ∧ r.operandIdx < n ∧ resolveRec D r = none ∧
      prob1 = { prob with
        ddepProps := fun d j => if d = i ∧ j = r.operandIdx
          then loadProps dk r.properties (prob.ddepProps d j)
          else prob.ddepProps d j }) ∨
    (∃ nm j, r.sourceRef = some nm ∧ lookupSymbolIn D nm = some (.oper j) ∧
      resolveRec D r = some j ∧
      prob1 = { (insertAuxDep prob j i) with
        adepProps := fun d s => if d = i ∧ s = j
          then loadProps dk r.properties (prob.adepProps d s)
          else prob.adepProps d s }) := by
  unfold loadDepRecord at h
  cases hs : r.sourceRef with
  | none =>
    rw [hs] at h
    simp only at h
    by_cases hlt : r.operandIdx < n
    · rw [if_pos hlt] at h
      injection h with h
      exact Or.inl ⟨rfl, hlt, resolveRec_none D r hs, h.symm⟩
    · rw [if_neg hlt] at h
      cases h
  | some nm =>
    rw [hs] at h
    simp only at h
    cases hl : lookupSymbolIn D nm with
    | none => rw [hl] at h; cases h
    | some sr =>
      cases sr with
      | oprType => rw [hl] at h; cases h
      | oper j =>
        rw [hl] at h
        injection h with h
        exact Or.inr ⟨nm, j, rfl, hl, resolveRec_some D r nm hs j hl, h.symm⟩

theorem loadDepRecords_cons_split (D : InstanceOp) (dk : List PropKind) (i n : Nat)
    (prob : Problem) (r : DependenceAttr) (recs : List DependenceAttr) (P : Problem)
    (h : loadDepRecords D dk i n prob (r :: recs) = some P) :
    ∃ prob1, loadDepRecord D dk i n prob r = some prob1 ∧
      loadDepRecords D dk i n prob1 recs = some P := by
  unfold loadDepRecords at h
  cases hstep : loadDepRecord D dk i n prob r with
  | none => rw [hstep] at h; cases h
  | some prob1 =>
    rw [hstep] at h
    exact ⟨prob1, rfl, h⟩

/-- The record walk leaves everything except the dependence stores alone. -/
theorem loadDepRecords_pres (D : InstanceOp) (dk : List PropKind) (i n : Nat) :
    ∀ (recs : List DependenceAttr) (prob P : Problem),
      loadDepRecords D dk i n prob recs = some P →
      P.operations = prob.operations ∧ P.operatorTypes = prob.operatorTypes ∧
      P.opProps = prob.opProps ∧ P.oprProps = prob.oprProps ∧
      P.instProps = prob.instProps := by
  intro recs
  induction recs with
  | nil =>
    intro prob P h
    injection h with h
    rw [← h]
    exact ⟨rfl, rfl, rfl, rfl, rfl⟩
  | cons r rest ih =>
    intro prob P h
    obtain ⟨prob1, hstep, hrest⟩ := loadDepRecords_cons_split D dk i n prob r rest P h
    have hih := ih prob1 P hrest
    rcases loadDepRecord_shape D dk i n prob r prob1 hstep with
      ⟨-, -, -, rfl⟩ | ⟨nm, j, -, -, -, rfl⟩
    · exact hih
    · exact hih

/-- The record walk inserts exactly the resolved auxiliary sources, in
order, into the current operation's auxiliary-dependence store. -/
theorem loadDepRecords_aux (D : InstanceOp) (dk : List PropKind) (i n : Nat) :
    ∀ (recs : List DependenceAttr) (prob P : Problem),
      loadDepRecords D dk i n prob recs = some P →
      (∀ d, d ≠ i → P.auxDeps d = prob.auxDeps d) ∧
      P.auxDeps i = (auxSourcesL D recs).foldl addUnique (prob.auxDeps i) := by
  intro recs
  induction recs with
  | nil =>
    intro prob P h
    injection h with h
    rw [← h]
    exact ⟨fun d _ => rfl, rfl⟩
  | cons r rest ih =>
    intro prob P h
    obtain ⟨prob1, hstep, hrest⟩ := loadDepRecords_cons_split D dk i n prob r rest P h
    have hih := ih prob1 P hrest
    rcases loadDepRecord_shape D dk i n prob r prob1 hstep with
      ⟨-, -, hres, rfl⟩ | ⟨nm, j, -, -, hres, rfl⟩
    · constructor
      · intro d hd
        exact hih.1 d hd
      · rw [hih.2]
        unfold auxSourcesL
        rw [List.filterMap_cons, hres]
    · constructor
      · intro d hd
        rw [hih.1 d hd]
        show (if d = i then addUnique (prob.auxDeps d) j else prob.auxDeps d) = prob.auxDeps d
        rw [if_neg hd]
      · rw [hih.2]
        unfold auxSourcesL
        rw [List.filterMap_cons, hres]
        show List.foldl addUnique _ (auxSourcesL D rest) = _
        have hbase : ({ (insertAuxDep prob j i) with
            adepProps := fun d s => if d = i ∧ s = j
              then loadProps dk r.properties (prob.adepProps d s)
              else prob.adepProps d s } : Problem).auxDeps i =
            addUnique (prob.auxDeps i) j := by
          show (if i = i then addUnique (prob.auxDeps i) j else prob.auxDeps i) = _
          rw [if_pos rfl]
        rw [hbase]
        rfl

theorem installOvers_cons (dk : List PropKind) (ps : Option (List EncodedProp))
    (l : List (Option (List EncodedProp))) (m : PropMap) :
    installOvers dk (ps :: l) m = installOvers dk l (loadProps dk ps m) :=
  rfl

/-- The record walk folds each data record's properties onto the def-use
dependence its index addresses. -/
theorem loadDepRecords_ddep (D : InstanceOp) (dk : List PropKind) (i n : Nat) :
    ∀ (recs : List DependenceAttr) (prob P : Problem),
      loadDepRecords D dk i n prob recs = some P →
      (∀ d j, d ≠ i → P.ddepProps d j = prob.ddepProps d j) ∧
      (∀ j, P.ddepProps i j =
        installOvers dk (dataRecPropsL recs j) (prob.ddepProps i j)) := by
  intro recs
  induction recs with
  | nil =>
    intro prob P h
    injection h with h
    rw [← h]
    exact ⟨fun d j _ => rfl, fun j => rfl⟩
  | cons r rest ih =>
    intro prob P h
    obtain ⟨prob1, hstep, hrest⟩ := loadDepRecords_cons_split D dk i n prob r rest P h
    have hih := ih prob1 P hrest
    rcases loadDepRecord_shape D dk i n prob r prob1 hstep with
      ⟨hs, -, -, rfl⟩ | ⟨nm, j0, hs, -, hres, rfl⟩
    · constructor
      · intro d j hd
        rw [hih.1 d j hd]
        show (if d = i ∧ j = r.operandIdx then _ else prob.ddepProps d j) = prob.ddepProps d j
        rw [if_neg (by intro hand; exact hd hand.1)]
      · intro j
        rw [hih.2 j]
        unfold dataRecPropsL
        rw [List.filter_cons]
        by_cases hj : r.operandIdx = j
        · have hc : (r.sourceRef == none && r.operandIdx == j) = true := by
            rw [hs, hj]
            simp
          rw [hc, if_pos rfl, List.map_cons, installOvers_cons]
          simp [hj]
        · have hc : (r.sourceRef == none && r.operandIdx == j) = false := by
            rw [hs]
            simp [hj]
          rw [hc]
          simp [Ne.symm hj]
    · constructor
      · intro d j hd
        exact hih.1 d j hd
      · intro j
        rw [hih.2 j]
        unfold dataRecPropsL
        rw [List.filter_cons]
        have hc : (r.sourceRef == none && r.operandIdx == j) = false := by
          rw [hs]
          rfl
        rw [hc]
        simp only [Bool.false_eq_true, if_false]
        rfl

/-- The record walk folds each auxiliary record's properties onto the
dependence from its resolved source. -/
theorem loadDepRecords_adep (D : InstanceOp) (dk : List PropKind) (i n : Nat) :
    ∀ (recs : List DependenceAttr) (prob P : Problem),
      loadDepRecords D dk i n prob recs = some P →
      (∀ d s, d ≠ i → P.adepProps d s = prob.adepProps d s) ∧
      (∀ s, P.adepProps i s =
        installOvers dk (auxRecPropsToL D recs s) (prob.adepProps i s)) := by
  intro recs
  induction recs with
  | nil =>
    intro prob P h
    injection h with h
    rw [← h]
    exact ⟨fun d s _ => rfl, fun s => rfl⟩
  | cons r rest ih =>
    intro prob P h
    obtain ⟨prob1, hstep, hrest⟩ := loadDepRecords_cons_split D dk i n prob r rest P h
    have hih := ih prob1 P hrest
    rcases loadDepRecord_shape D dk i n prob r prob1 hstep with
      ⟨hs, -, hres, rfl⟩ | ⟨nm, j0, hs, hl, hres, rfl⟩
    · constructor
      · intro d s hd
        exact hih.1 d s hd
      · intro s
        rw [hih.2 s]
        unfold auxRecPropsToL
        rw [List.filter_cons]
        have hc : (resolveRec D r == some s) = false := by
          rw [hres]
          rfl
        rw [hc]
        simp only [Bool.false_eq_true, if_false]
    · constructor
      · intro d s hd
        rw [hih.1 d s hd]
        show (if d = i ∧ s = j0
          then loadProps dk r.properties (prob.adepProps d s)
          else prob.adepProps d s) = prob.adepProps d s
        rw [if_neg (fun hand => hd hand.1)]
      · intro s
        rw [hih.2 s]
        unfold auxRecPropsToL
        rw [List.filter_cons]
        by_cases hsj : s = j0
        · have hc : (resolveRec D r == some s) = true := by
            rw [hres, hsj]
            simp
          rw [hc, if_pos rfl, List.map_cons, installOvers_cons]
          simp [hsj]
        · have hc : (resolveRec D r == some s) = false := by
            rw [hres]
            simp
            exact fun hEq => hsj hEq.symm
          rw [hc]
          simp [hsj]

theorem loadOpDeps_eq (D : InstanceOp) (dk : List PropKind) (i : Nat)
    (op : OperationOp) (prob : Problem) :
    loadOpDeps D dk i op prob =
      loadDepRecords D dk i op.operands.length prob (op.dependences.getD []) := by
  unfold loadOpDeps
  cases hd : op.dependences with
  | none => rfl
  | some recs => rfl

theorem loadDepsPass_cons_split (D : InstanceOp) (dk : List PropKind) (i : Nat)
    (prob : Problem) (op : OperationOp) (rest : List OperationOp) (P : Problem)
    (h : loadDepsPass D dk i prob (op :: rest) = some P) :
    ∃ prob1, loadOpDeps D dk i op prob = some prob1 ∧
      loadDepsPass D dk (i + 1) prob1 rest = some P := by
  unfold loadDepsPass at h
  cases hstep : loadOpDeps D dk i op prob with
  | none => rw [hstep] at h; cases h
  | some prob1 =>
    rw [hstep] at h
    exact ⟨prob1, rfl, h⟩

/-- Full characterization of the loader's second operation walk: it
preserves everything but the dependence stores, and fills the latter
per destination operation from that operation's records. -/
theorem loadDepsPass_char (D : InstanceOp) (dk : List PropKind) :
    ∀ (ops : List OperationOp) (i : Nat) (prob P : Problem),
      loadDepsPass D dk i prob ops = some P →
      P.operations = prob.operations ∧ P.operatorTypes = prob.operatorTypes ∧
      P.opProps = prob.opProps ∧ P.oprProps = prob.oprProps ∧
      P.instProps = prob.instProps ∧
      (∀ d, P.auxDeps d =
        if i ≤ d ∧ d < i + ops.length
        then (auxSources D (ops.getD (d - i) default)).foldl addUnique (prob.auxDeps d)
        else prob.auxDeps d) ∧
      (∀ d j, P.ddepProps d j =
        if i ≤ d ∧ d < i + ops.length
        then installOvers dk (dataRecProps (ops.getD (d - i) default) j) (prob.ddepProps d j)
        else prob.ddepProps d j) ∧
      (∀ d s, P.adepProps d s =
        if i ≤ d ∧ d < i + ops.length
        then installOvers dk (auxRecPropsTo D (ops.getD (d - i) default) s)
          (prob.adepProps d s)
        else prob.adepProps d s) := by
  intro ops
  induction ops with
  | nil =>
    intro i prob P h
    injection h with h
    rw [← h]
    refine ⟨rfl, rfl, rfl, rfl, rfl, ?_, ?_, ?_⟩
    · intro d; rw [if_neg (by simp only [List.length_nil]; omega)]
    · intro d j; rw [if_neg (by simp only [List.length_nil]; omega)]
    · intro d s; rw [if_neg (by simp only [List.length_nil]; omega)]
  | cons op rest ih =>
    intro i prob P h
    obtain ⟨prob1, hstep, hrest⟩ := loadDepsPass_cons_split D dk i prob op rest P h
    rw [loadOpDeps_eq] at hstep
    have hpres := loadDepRecords_pres D dk i op.operands.length _ prob prob1 hstep
    have hauxr := loadDepRecords_aux D dk i op.operands.length _ prob prob1 hstep
    have hddep := loadDepRecords_ddep D dk i op.operands.length _ prob prob1 hstep
    have hadep := loadDepRecords_adep D dk i op.operands.length _ prob prob1 hstep
    have hih := ih (i + 1) prob1 P hrest
    refine ⟨hih.1.trans hpres.1, hih.2.1.trans hpres.2.1, hih.2.2.1.trans hpres.2.2.1,
      hih.2.2.2.1.trans hpres.2.2.2.1, hih.2.2.2.2.1.trans hpres.2.2.2.2,
      ?_, ?_, ?_⟩
    · intro d
      rw [hih.2.2.2.2.2.1 d]
      by_cases hd : d = i
      · subst hd
        rw [if_neg (by omega), if_pos (by simp only [List.length_cons]; omega)]
        have hzero : d - d = 0 := by omega
        rw [hzero, List.getD_cons_zero, hauxr.2]
        rfl
      · rw [hauxr.1 d hd]
        by_cases hrange : i + 1 ≤ d ∧ d < i + 1 + rest.length
        · rw [if_pos hrange, if_pos (by simp only [List.length_cons]; omega)]
          have hshift : d - i = (d - (i + 1)) + 1 := by omega
          rw [hshift, List.getD_cons_succ]
        · rw [if_neg hrange, if_neg (by simp only [List.length_cons]; omega)]
    · intro d j
      rw [hih.2.2.2.2.2.2.1 d j]
      by_cases hd : d = i
      · subst hd
        rw [if_neg (by omega), if_pos (by simp only [List.length_cons]; omega)]
        have hzero : d - d = 0 := by omega
        rw [hzero, List.getD_cons_zero, hddep.2 j]
        rfl
      · rw [hddep.1 d j hd]
        by_cases hrange : i + 1 ≤ d ∧ d < i + 1 + rest.length
        · rw [if_pos hrange, if_pos (by simp only [List.length_cons]; omega)]
          have hshift : d - i = (d - (i + 1)) + 1 := by omega
          rw [hshift, List.getD_cons_succ]
        · rw [if_neg hrange, if_neg (by simp only [List.length_cons]; omega)]
    · intro d s
      rw [hih.2.2.2.2.2.2.2 d s]
      by_cases hd : d = i
      · subst hd
        rw [if_neg (by omega), if_pos (by simp only [List.length_cons]; omega)]
        have hzero : d - d = 0 := by omega
        rw [hzero, List.getD_cons_zero, hadep.2 s]
        rfl
      · rw [hadep.1 d s hd]
        by_cases hrange : i + 1 ≤ d ∧ d < i + 1 + rest.length
        · rw [if_pos hrange, if_pos (by simp only [List.length_cons]; omega)]
          have hshift : d - i = (d - (i + 1)) + 1 := by omega
          rw [hshift, List.getD_cons_succ]
        · rw [if_neg hrange, if_neg (by simp only [List.length_cons]; omega)]

/-! ### The loader's first two walks -/

/-- Characterization of the operator-type walk: the operator types are folded
in (interned, in declaration order), each name's property store accumulates
the properties of its declarations, everything else is untouched. -/
theorem loadOperatorTypes_char (oprK : List PropKind) :
    ∀ (decls : List OperatorTypeOp) (prob : Problem),
      (loadOperatorTypes oprK prob decls).operatorTypes =
        decls.foldl (fun ts o => insertOperatorType ts o.sym_name) prob.operatorTypes ∧
      (∀ nm, (loadOperatorTypes oprK prob decls).oprProps nm =
        installOvers oprK (oprDeclProps decls nm) (prob.oprProps nm)) ∧
      (loadOperatorTypes oprK prob decls).operations = prob.operations ∧
      (loadOperatorTypes oprK prob decls).opProps = prob.opProps ∧
      (loadOperatorTypes oprK prob decls).instProps = prob.instProps ∧
      (loadOperatorTypes oprK prob decls).auxDeps = prob.auxDeps ∧
      (loadOperatorTypes oprK prob decls).ddepProps = prob.ddepProps ∧
      (loadOperatorTypes oprK prob decls).adepProps = prob.adepProps := by
  intro decls
  induction decls with
  | nil => intro prob; exact ⟨rfl, fun _ => rfl, rfl, rfl, rfl, rfl, rfl, rfl⟩
  | cons o rest ih =>
    intro prob
    have hexp : loadOperatorTypes oprK prob (o :: rest) =
        loadOperatorTypes oprK (loadOperatorTypeStep oprK prob o) rest := rfl
    rw [hexp]
    have hih := ih (loadOperatorTypeStep oprK prob o)
    refine ⟨?_, ?_, ?_, ?_, ?_, ?_, ?_, ?_⟩
    · rw [List.foldl_cons]
      exact hih.1
    · intro nm
      have hgoal := hih.2.1 nm
      rw [hgoal]
      unfold oprDeclProps
      rw [List.filter_cons]
      by_cases hnm : o.sym_name = nm
      · have hc : (o.sym_name == nm) = true := by simp [hnm]
        rw [hc, if_pos rfl, List.map_cons, installOvers_cons]
        have hbase : (loadOperatorTypeStep oprK prob o).oprProps nm =
            loadProps oprK o.properties (prob.oprProps nm) := by
          show (if nm = o.sym_name then loadProps oprK o.properties (prob.oprProps nm)
            else prob.oprProps nm) = loadProps oprK o.properties (prob.oprProps nm)
          rw [if_pos hnm.symm]
        rw [hbase]
      · have hc : (o.sym_name == nm) = false := by simp [hnm]
        rw [hc]
        simp only [Bool.false_eq_true, if_false]
        have hbase : (loadOperatorTypeStep oprK prob o).oprProps nm = prob.oprProps nm := by
          show (if nm = o.sym_name then loadProps oprK o.properties (prob.oprProps nm)
            else prob.oprProps nm) = prob.oprProps nm
          rw [if_neg (fun hEq => hnm hEq.symm)]
        rw [hbase]
    · exact hih.2.2.1
    · exact hih.2.2.2.1
    · exact hih.2.2.2.2.1
    · exact hih.2.2.2.2.2.1
    · exact hih.2.2.2.2.2.2.1
    · exact hih.2.2.2.2.2.2.2

/-- Characterization of the registration walk: the operations are appended
in document order (fixing the node order), each position's property store
holds its declaration's decoded properties, everything else is untouched. -/
theorem loadOperations_char (opK : List PropKind) :
    ∀ (ops : List OperationOp) (prob : Problem),
      (loadOperations opK prob ops).operations =
        prob.operations ++ ops.map (fun op => ⟨op.operands, op.numResults⟩) ∧
      (∀ j, (loadOperations opK prob ops).opProps j =
        if prob.operations.length ≤ j ∧ j < prob.operations.length + ops.length
        then loadProps opK ((ops.getD (j - prob.operations.length) default).properties)
          (prob.opProps j)
        else prob.opProps j) ∧
      (loadOperations opK prob ops).operatorTypes = prob.operatorTypes ∧
      (loadOperations opK prob ops).oprProps = prob.oprProps ∧
      (loadOperations opK prob ops).instProps = prob.instProps ∧
      (loadOperations opK prob ops).auxDeps = prob.auxDeps ∧
      (loadOperations opK prob ops).ddepProps = prob.ddepProps ∧
      (loadOperations opK prob ops).adepProps = prob.adepProps := by
  intro ops
  induction ops with
  | nil =>
    intro prob
    refine ⟨?_, ?_, rfl, rfl, rfl, rfl, rfl, rfl⟩
    · show prob.operations = prob.operations ++
        List.map (fun op : OperationOp => (⟨op.operands, op.numResults⟩ : OpNode)) []
      rw [List.map_nil, List.append_nil]
    · intro j
      rw [if_neg (by simp only [List.length_nil]; omega)]
      rfl
  | cons op rest ih =>
    intro prob
    have hexp : loadOperations opK prob (op :: rest) =
        loadOperations opK (loadOperationStep opK prob op) rest := rfl
    rw [hexp]
    have hih := ih (loadOperationStep opK prob op)
    have hlen : (loadOperationStep opK prob op).operations.length =
        prob.operations.length + 1 := by
      show (prob.operations ++ [(⟨op.operands, op.numResults⟩ : OpNode)]).length =
        prob.operations.length + 1
      rw [List.length_append]
      rfl
    refine ⟨?_, ?_, ?_, ?_, ?_, ?_, ?_, ?_⟩
    · rw [hih.1]
      show (prob.operations ++ [(⟨op.operands, op.numResults⟩ : OpNode)]) ++
          rest.map (fun op : OperationOp => (⟨op.operands, op.numResults⟩ : OpNode)) =
        prob.operations ++
          (op :: rest).map (fun op : OperationOp => (⟨op.operands, op.numResults⟩ : OpNode))
      rw [List.append_assoc, List.map_cons]
      rfl
    · intro j
      rw [hih.2.1 j, hlen]
      by_cases hj : j = prob.operations.length
      · rw [if_neg (by omega), if_pos (by simp only [List.length_cons]; omega)]
        have hzero : j - prob.operations.length = 0 := by omega
        rw [hzero, List.getD_cons_zero]
        show (if j = prob.operations.length
          then loadProps opK op.properties (prob.opProps j)
          else prob.opProps j) = loadProps opK op.properties (prob.opProps j)
        rw [if_pos hj]
      · have hbase : (loadOperationStep opK prob op).opProps j = prob.opProps j := by
          show (if j = prob.operations.length
            then loadProps opK op.properties (prob.opProps j)
            else prob.opProps j) = prob.opProps j
          rw [if_neg hj]
        by_cases hrange : prob.operations.length + 1 ≤ j ∧
            j < prob.operations.length + 1 + rest.length
        · rw [if_pos hrange, if_pos (by simp only [List.length_cons]; omega), hbase]
          have hshift : j - prob.operations.length =
              (j - (prob.operations.length + 1)) + 1 := by omega
          rw [hshift, List.getD_cons_succ]
        · rw [if_neg hrange, if_neg (by simp only [List.length_cons]; omega), hbase]
    · exact hih.2.2.1
    · exact hih.2.2.2.1
    · exact hih.2.2.2.2.1
    · exact hih.2.2.2.2.2.1
    · exact hih.2.2.2.2.2.2.1
    · exact hih.2.2.2.2.2.2.2

/-! ### Success conditions of the loader -/

theorem loadDepRecord_isSome_iff (D : InstanceOp) (dk : List PropKind) (i n : Nat)
    (prob : Problem) (r : DependenceAttr) :
    (loadDepRecord D dk i n prob r).isSome = true ↔ recOk D n r := by
  unfold loadDepRecord recOk
  cases hs : r.sourceRef with
  | none =>
    by_cases hlt : r.operandIdx < n
    · rw [if_pos hlt]
      simp [hlt]
    · rw [if_neg hlt]
      simp [hlt]
  | some nm =>
    cases hl : lookupSymbolIn D nm with
    | none => simp [hl]
    | some sr =>
      cases sr with
      | oprType => simp [hl]
      | oper j => simp [hl]

theorem loadDepRecords_isSome_iff (D : InstanceOp) (dk : List PropKind) (i n : Nat) :
    ∀ (recs : List DependenceAttr) (prob : Problem),
      (loadDepRecords D dk i n prob recs).isSome = true ↔ ∀ r ∈ recs, recOk D n r := by
  intro recs
  induction recs with
  | nil =>
    intro prob
    constructor
    · intro _ r hr
      cases hr
    · intro _
      rfl
  | cons r rest ih =>
    intro prob
    have hiff := loadDepRecord_isSome_iff D dk i n prob r
    unfold loadDepRecords
    cases hstep : loadDepRecord D dk i n prob r with
    | none =>
      rw [hstep] at hiff
      simp only [Option.isSome_none, Bool.false_eq_true, false_iff] at hiff
      simp only [Option.isSome_none, Bool.false_eq_true, false_iff]
      intro hall
      exact hiff (hall r (List.mem_cons_self r rest))
    | some prob1 =>
      rw [hstep] at hiff
      simp only [Option.isSome_some, true_iff] at hiff
      rw [ih prob1]
      simp [List.forall_mem_cons, hiff]

theorem loadDepsPass_isSome_iff (D : InstanceOp) (dk : List PropKind) :
    ∀ (ops : List OperationOp) (i : Nat) (prob : Problem),
      (loadDepsPass D dk i prob ops).isSome = true ↔
        ∀ op ∈ ops, ∀ r ∈ op.dependences.getD [], recOk D op.operands.length r := by
  intro ops
  induction ops with
  | nil =>
    intro i prob
    constructor
    · intro _ op hop
      cases hop
    · intro _
      rfl
  | cons op rest ih =>
    intro i prob
    have hiff : (loadOpDeps D dk i op prob).isSome = true ↔
        ∀ r ∈ op.dependences.getD [], recOk D op.operands.length r := by
      rw [loadOpDeps_eq]
      exact loadDepRecords_isSome_iff D dk i op.operands.length (op.dependences.getD []) prob
    unfold loadDepsPass
    cases hstep : loadOpDeps D dk i op prob with
    | none =>
      rw [hstep] at hiff
      simp only [Option.isSome_none, Bool.false_eq_true, false_iff] at hiff
      simp only [Option.isSome_none, Bool.false_eq_true, false_iff]
      intro hall
      exact hiff (hall op (List.mem_cons_self op rest))
    | some prob1 =>
      rw [hstep] at hiff
      simp only [Option.isSome_some, true_iff] at hiff
      rw [ih (i + 1) prob1, List.forall_mem_cons]
      constructor
      · intro hrest
        exact ⟨hiff, hrest⟩
      · intro hall
        exact hall.2

/-- `loadProblem` succeeds exactly when every dependence record of every
operation is loadable: resolvable source references and in-bounds operand
indices. -/
theorem loadProblem_isSome_iff (D : InstanceOp) (opK oprK depK instK : List PropKind) :
    (loadProblem D opK oprK depK instK).isSome = true ↔
      ∀ op ∈ D.operations, ∀ r ∈ op.dependences.getD [],
        recOk D op.operands.length r :=
  loadDepsPass_isSome_iff D depK D.operations 0 _

/-! ### Full characterization of a loaded problem -/

theorem loadProblem_char (D : InstanceOp) (opK oprK depK instK : List PropKind)
    (P : Problem) (h : loadProblem D opK oprK depK instK = some P) :
    P.operations = D.operations.map (fun op => ⟨op.operands, op.numResults⟩) ∧
    P.operatorTypes =
      D.operatorTypes.foldl (fun ts o => insertOperatorType ts o.sym_name) [] ∧
    P.instProps = loadProps instK D.properties emptyProps ∧
    (∀ nm, P.oprProps nm = installOvers oprK (oprDeclProps D.operatorTypes nm) emptyProps) ∧
    (∀ j, P.opProps j =
      if j < D.operations.length
      then loadProps opK ((D.operations.getD j default).properties) emptyProps
      else emptyProps) ∧
    (∀ d, P.auxDeps d =
      if d < D.operations.length
      then (auxSources D (D.operations.getD d default)).foldl addUnique []
      else []) ∧
    (∀ d j, P.ddepProps d j =
      if d < D.operations.length
      then installOvers depK (dataRecProps (D.operations.getD d default) j) emptyProps
      else emptyProps) ∧
    (∀ d s, P.adepProps d s =
      if d < D.operations.length
      then installOvers depK (auxRecPropsTo D (D.operations.getD d default) s) emptyProps
      else emptyProps) := by
  unfold loadProblem at h
  have hpass := loadDepsPass_char D depK D.operations 0 _ P h
  have hops := loadOperations_char opK D.operations
    (loadOperatorTypes oprK
      { emptyProblem with instProps := loadProps instK D.properties emptyProps }
      D.operatorTypes)
  have hoprs := loadOperatorTypes_char oprK D.operatorTypes
    { emptyProblem with instProps := loadProps instK D.properties emptyProps }
  have hp1ops : (loadOperatorTypes oprK
      { emptyProblem with instProps := loadProps instK D.properties emptyProps }
      D.operatorTypes).operations = [] := hoprs.2.2.1
  have hp1len : (loadOperatorTypes oprK
      { emptyProblem with instProps := loadProps instK D.properties emptyProps }
      D.operatorTypes).operations.length = 0 := by rw [hp1ops]; rfl
  refine ⟨?_, ?_, ?_, ?_, ?_, ?_, ?_, ?_⟩
  · rw [hpass.1, hops.1, hp1ops, List.nil_append]
  · rw [hpass.2.1, hops.2.2.1, hoprs.1]
    rfl
  · rw [hpass.2.2.2.2.1, hops.2.2.2.2.1, hoprs.2.2.2.2.1]
  · intro nm
    rw [hpass.2.2.2.1, hops.2.2.2.1]
    rw [hoprs.2.1 nm]
    rfl
  · intro j
    rw [hpass.2.2.1]
    have h21 := hops.2.1 j
    rw [hp1len] at h21
    rw [h21]
    by_cases hj : j < D.operations.length
    · rw [if_pos (by omega), if_pos hj]
      have hsub : j - 0 = j := by omega
      rw [hsub]
      have hfun := congrFun hoprs.2.2.2.1 j
      rw [hfun]
      rfl
    · rw [if_neg (by omega), if_neg hj]
      have hfun := congrFun hoprs.2.2.2.1 j
      rw [hfun]
      rfl
  · intro d
    rw [hpass.2.2.2.2.2.1 d]
    by_cases hd : d < D.operations.length
    · rw [if_pos (by omega), if_pos hd]
      have hsub : d - 0 = d := by omega
      rw [hsub]
      have hfun := congrFun hops.2.2.2.2.2.1 d
      rw [hfun]
      have hfun1 := congrFun hoprs.2.2.2.2.2.1 d
      rw [hfun1]
      rfl
    · rw [if_neg (by omega), if_neg hd]
      have hfun := congrFun hops.2.2.2.2.2.1 d
      rw [hfun]
      have hfun1 := congrFun hoprs.2.2.2.2.2.1 d
      rw [hfun1]
      rfl
  · intro d j
    rw [hpass.2.2.2.2.2.2.1 d j]
    by_cases hd : d < D.operations.length
    · rw [if_pos (by omega), if_pos hd]
      have hsub : d - 0 = d := by omega
      rw [hsub]
      have hfun := congrFun (congrFun hops.2.2.2.2.2.2.1 d) j
      rw [hfun]
      have hfun1 := congrFun (congrFun hoprs.2.2.2.2.2.2.1 d) j
      rw [hfun1]
      rfl
    · rw [if_neg (by omega), if_neg hd]
      have hfun := congrFun (congrFun hops.2.2.2.2.2.2.1 d) j
      rw [hfun]
      have hfun1 := congrFun (congrFun hoprs.2.2.2.2.2.2.1 d) j
      rw [hfun1]
      rfl
  · intro d s
    rw [hpass.2.2.2.2.2.2.2 d s]
    by_cases hd : d < D.operations.length
    · rw [if_pos (by omega), if_pos hd]
      have hsub : d - 0 = d := by omega
      rw [hsub]
      have hfun := congrFun (congrFun hops.2.2.2.2.2.2.2 d) s
      rw [hfun]
      have hfun1 := congrFun (congrFun hoprs.2.2.2.2.2.2.2 d) s
      rw [hfun1]
      rfl
    · rw [if_neg (by omega), if_neg hd]
      have hfun := congrFun (congrFun hops.2.2.2.2.2.2.2 d) s
      rw [hfun]
      have hfun1 := congrFun (congrFun hoprs.2.2.2.2.2.2.2 d) s
      rw [hfun1]
      rfl

/-! ### C7: reference errors -/

/-- C7.  Reference errors are fatal: `OperationOp::verifySymbolUses` accepts
an operation exactly when every source reference of its records resolves,
within the enclosing instance, to an existing `OperationOp`; and if any
record of any operation carries a reference that does not resolve to an
operation, `loadProblem` produces no problem at all (`none`): there is no
partial result. -/
theorem reference_errors_fatal (D : InstanceOp) (op : OperationOp)
    (opK oprK depK instK : List PropKind) :
    (op.verifySymbolUses D = true ↔
      ∀ r ∈ op.dependences.getD [], ∀ nm, r.sourceRef = some nm →
        ∃ j, lookupSymbolIn D nm = some (.oper j)) ∧
    (∀ op' ∈ D.operations, ∀ r ∈ op'.dependences.getD [], ∀ nm,
      r.sourceRef = some nm → (∀ j, lookupSymbolIn D nm ≠ some (.oper j)) →
      loadProblem D opK oprK depK instK = none) := by
  constructor
  · unfold OperationOp.verifySymbolUses
    cases hd : op.dependences with
    | none =>
      constructor
      · intro _ r hr
        cases hr
      · intro _
        rfl
    | some deps =>
      show deps.all _ = true ↔
        ∀ r ∈ (some deps).getD [], ∀ nm, r.sourceRef = some nm →
          ∃ j, lookupSymbolIn D nm = some (.oper j)
      rw [List.all_eq_true]
      apply forall_congr'
      intro r
      apply imp_congr_right
      intro _
      cases hs : r.sourceRef with
      | none =>
        constructor
        · intro _ nm hnm
          cases hnm
        · intro _
          rfl
      | some nm =>
        cases hl : lookupSymbolIn D nm with
        | none =>
          constructor
          · intro hfalse
            simp [hl] at hfalse
          · intro hall
            obtain ⟨j, hj⟩ := hall nm rfl
            rw [hl] at hj
            cases hj
        | some sr =>
          cases sr with
          | oprType =>
            constructor
            · intro hfalse
              simp [hl] at hfalse
            · intro hall
              obtain ⟨j, hj⟩ := hall nm rfl
              rw [hl] at hj
              cases hj
          | oper j =>
            constructor
            · intro _ nm' hnm'
              injection hnm' with hEq
              exact ⟨j, hEq ▸ hl⟩
            · intro _
              simp [hl]
  · intro op' hop' r hr nm hnm hbad
    cases hload : loadProblem D opK oprK depK instK with
    | none => rfl
    | some P =>
      have hsome : (loadProblem D opK oprK depK instK).isSome = true := by
        rw [hload]
        rfl
      have hok := (loadProblem_isSome_iff D opK oprK depK instK).1 hsome op' hop' r hr
      unfold recOk at hok
      rw [hnm] at hok
      obtain ⟨j, hj⟩ := hok
      exact absurd hj (hbad j)

/-- Witness for C7: a document whose single operation references the
undefined symbol `"x"` loads to nothing. -/
theorem reference_errors_fatal_witness :
    loadProblem
      { instanceName := none, problemName := "p", properties := none,
        operatorTypes := [],
        operations := [⟨some "a", [], 0, some [⟨0, some "x", none⟩], none⟩] }
      [] [] [] [] = none :=
  (reference_errors_fatal
      { instanceName := none, problemName := "p", properties := none,
        operatorTypes := [],
        operations := [⟨some "a", [], 0, some [⟨0, some "x", none⟩], none⟩] }
      ⟨some "a", [], 0, some [⟨0, some "x", none⟩], none⟩ [] [] [] []).2
    ⟨some "a", [], 0, some [⟨0, some "x", none⟩], none⟩ (by decide)
    ⟨0, some "x", none⟩ (by decide) "x" rfl
    (fun j h => by
      rw [show lookupSymbolIn
        { instanceName := none, problemName := "p", properties := none,
          operatorTypes := [],
          operations := [⟨some "a", [], 0, some [⟨0, some "x", none⟩], none⟩] }
        "x" = none from rfl] at h
      cases h)

/-! ### C5: what the loader's second walk inserts -/

/-- C5 counterexample: for a record *without* a source name the loader does
not insert anything into the problem's dependence store — it only attaches
the record's properties to the def-use edge (which is implicit in the
problem via the operation's operands, and still enumerated).  The claim's
"a data Dependence ... is constructed and inserted into the Problem (just
as an auxiliary Dependence is inserted)" fails on this input: the load
succeeds, the inserted-dependence store stays empty everywhere, yet the
record's property was installed on the def-use edge and the edge is
enumerated implicitly. -/
theorem loader_data_record_not_inserted :
    ∃ P, loadProblem
        { instanceName := none, problemName := "p", properties := none,
          operatorTypes := [],
          operations := [⟨some "a", [], 1, none, none⟩,
            ⟨none, [(0, 0)], 0, some [⟨0, none, some [(0, 5)]⟩], none⟩] }
        [] [] [⟨0, 0⟩] [] = some P ∧
      (∀ d, P.auxDeps d = []) ∧
      P.ddepProps 1 0 0 = some 5 ∧
      P.getDependences 1 = [PDep.defUse 0] :=
  ⟨_, rfl, fun _ => rfl, rfl, rfl⟩

/-- C5 amended: in the loader's second walk, the dependences inserted into
the problem are exactly the auxiliary records' resolved sources (in record
order, set semantics); a record without a source name only folds its
properties onto the def-use edge addressed by its slot index; and the walk
is total only when every record is loadable — an unresolvable reference or
out-of-bounds index yields `none`, so in a successful load every record was
accepted. -/
theorem loader_dependence_handling (D : InstanceOp)
    (opK oprK depK instK : List PropKind) (P : Problem)
    (h : loadProblem D opK oprK depK instK = some P) :
    (∀ d, P.auxDeps d =
      if d < D.operations.length
      then (auxSources D (D.operations.getD d default)).foldl addUnique []
      else []) ∧
    (∀ d j, P.ddepProps d j =
      if d < D.operations.length
      then installOvers depK (dataRecProps (D.operations.getD d default) j) emptyProps
      else emptyProps) ∧
    (∀ op ∈ D.operations, ∀ r ∈ op.dependences.getD [],
      recOk D op.operands.length r) := by
  have hchar := loadProblem_char D opK oprK depK instK P h
  refine ⟨hchar.2.2.2.2.2.1, hchar.2.2.2.2.2.2.1, ?_⟩
  exact (loadProblem_isSome_iff D opK oprK depK instK).1 (by rw [h]; rfl)

/-- Witness for the amended C5, at a one-operation document. -/
theorem loader_dependence_handling_witness :
    ((loadProblem
        { instanceName := none, problemName := "p", properties := none,
          operatorTypes := [], operations := [⟨none, [], 0, none, none⟩] }
        [] [] [] []).getD emptyProblem).auxDeps 0 =
      (if 0 < (InstanceOp.operations
          { instanceName := none, problemName := "p", properties := none,
            operatorTypes := [], operations := [⟨none, [], 0, none, none⟩] }).length
       then (auxSources
          { instanceName := none, problemName := "p", properties := none,
            operatorTypes := [], operations := [⟨none, [], 0, none, none⟩] }
          ((InstanceOp.operations
            { instanceName := none, problemName := "p", properties := none,
              operatorTypes := [], operations := [⟨none, [], 0, none, none⟩] }).getD
            0 default)).foldl addUnique []
       else []) :=
  (loader_dependence_handling
    { instanceName := none, problemName := "p", properties := none,
      operatorTypes := [], operations := [⟨none, [], 0, none, none⟩] }
    [] [] [] []
    ((loadProblem
        { instanceName := none, problemName := "p", properties := none,
          operatorTypes := [], operations := [⟨none, [], 0, none, none⟩] }
        [] [] [] []).getD emptyProblem) rfl).1 0

/-! ### C1 helpers: `addUnique` folds and ranged lookups -/

theorem mem_addUnique [BEq α] [LawfulBEq α] (l : List α) (x y : α) :
    y ∈ addUnique l x ↔ y ∈ l ∨ y = x := by
  unfold addUnique
  by_cases hc : l.contains x
  · rw [if_pos hc]
    have hx : x ∈ l := List.elem_iff.1 hc
    constructor
    · exact Or.inl
    · rintro (h | rfl)
      · exact h
      · exact hx
  · rw [if_neg hc, List.mem_append, List.mem_singleton]

theorem mem_foldl_addUnique [BEq α] [LawfulBEq α] (l : List α) :
    ∀ (acc : List α) (y : α), y ∈ l.foldl addUnique acc ↔ y ∈ acc ∨ y ∈ l := by
  induction l with
  | nil => intro acc y; simp
  | cons x xs ih =>
    intro acc y
    rw [List.foldl_cons, ih (addUnique acc x) y, mem_addUnique]
    constructor
    · rintro ((h | rfl) | h)
      · exact Or.inl h
      · exact Or.inr (List.mem_cons_self _ _)
      · exact Or.inr (List.mem_cons_of_mem _ h)
    · rintro (h | h)
      · exact Or.inl (Or.inl h)
      · rcases List.mem_cons.1 h with rfl | h
        · exact Or.inl (Or.inr rfl)
        · exact Or.inr h

theorem nodup_addUnique [BEq α] [LawfulBEq α] (l : List α) (x : α) (h : l.Nodup) :
    (addUnique l x).Nodup := by
  unfold addUnique
  by_cases hc : l.contains x
  · rwa [if_pos hc]
  · rw [if_neg hc]
    have hx : x ∉ l := fun hmem => hc (List.elem_iff.2 hmem)
    refine List.Nodup.append h (List.nodup_singleton x) ?_
    intro a ha hax
    rw [List.mem_singleton] at hax
    subst hax
    exact hx ha

theorem nodup_foldl_addUnique [BEq α] [LawfulBEq α] (l : List α) :
    ∀ acc : List α, acc.Nodup → (l.foldl addUnique acc).Nodup := by
  induction l with
  | nil => intro acc h; exact h
  | cons x xs ih =>
    intro acc h
    rw [List.foldl_cons]
    exact ih (addUnique acc x) (nodup_addUnique acc x h)

theorem foldl_addUnique_eq_append [BEq α] [LawfulBEq α] (l : List α) :
    ∀ acc : List α, l.Nodup → (∀ x ∈ l, x ∉ acc) → l.foldl addUnique acc = acc ++ l := by
  induction l with
  | nil => intro acc _ _; rw [List.foldl_nil, List.append_nil]
  | cons x xs ih =>
    intro acc hnd hdis
    rw [List.foldl_cons]
    have hx : x ∉ acc := hdis x (List.mem_cons_self x xs)
    have hadd : addUnique acc x = acc ++ [x] := by
      unfold addUnique
      rw [if_neg]
      intro hc
      exact hx (List.elem_iff.1 hc)
    have hdis2 : ∀ y ∈ xs, y ∉ acc ++ [x] := by
      intro y hy hmem
      rw [List.mem_append, List.mem_singleton] at hmem
      rcases hmem with h | rfl
      · exact hdis y (List.mem_cons_of_mem _ hy) h
      · exact (List.nodup_cons.1 hnd).1 hy
    rw [hadd, ih (acc ++ [x]) (List.nodup_cons.1 hnd).2 hdis2, List.append_assoc]
    rfl

theorem foldl_addUnique_self [BEq α] [LawfulBEq α] (l : List α) (h : l.Nodup) :
    l.foldl addUnique [] = l := by
  have h2 := foldl_addUnique_eq_append l [] h (fun x _ hx => (List.not_mem_nil x) hx)
  rwa [List.nil_append] at h2

theorem getD_map_range (f : Nat → α) (n i : Nat) (d : α) (h : i < n) :
    ((List.range n).map f).getD i d = f i := by
  rw [List.getD_eq_getElem?_getD, List.getElem?_map, List.getElem?_range h]
  rfl

theorem filter_beq_of_nodup [BEq α] [LawfulBEq α] (l : List α) (x : α) (h : l.Nodup) :
    l.filter (fun y => y == x) = if x ∈ l then [x] else [] := by
  induction l with
  | nil => rw [List.filter_nil, if_neg (List.not_mem_nil x)]
  | cons y ys ih =>
    rw [List.filter_cons]
    by_cases hyx : y = x
    · subst hyx
      rw [if_pos (by simp), if_pos (List.mem_cons_self y ys)]
      have hnot : y ∉ ys := (List.nodup_cons.1 h).1
      rw [ih (List.nodup_cons.1 h).2, if_neg hnot]
    · rw [if_neg (by simp [hyx]), ih (List.nodup_cons.1 h).2]
      by_cases hx : x ∈ ys
      · rw [if_pos hx, if_pos (List.mem_cons_of_mem _ hx)]
      · rw [if_neg hx, if_neg ?_]
        intro hmem
        rcases List.mem_cons.1 hmem with h1 | h1
        · exact hyx h1.symm
        · exact hx h1

/-! ### C1 helpers: the name table under fully named auxiliary sources -/

theorem containsKey_iff (t : NameTable) (k : Nat) :
    t.containsKey k = true ↔ ∃ e ∈ t, e.1 = k := by
  unfold NameTable.containsKey
  rw [List.any_eq_true]
  constructor
  · rintro ⟨e, he, hp⟩
    exact ⟨e, he, by simpa using hp⟩
  · rintro ⟨e, he, hp⟩
    exact ⟨e, he, by simp [hp]⟩

theorem mem_insertIU (t : NameTable) (k : Nat) (v : String) (e : Nat × String)
    (h : e ∈ t.insertIU k v) : e ∈ t ∨ e = (k, v) := by
  unfold NameTable.insertIU at h
  by_cases hc : t.containsKey k
  · rw [if_pos hc] at h
    obtain ⟨e0, he0, heq⟩ := List.mem_map.1 h
    by_cases hk : (e0.1 == k) = true
    · rw [if_pos hk] at heq
      exact Or.inr heq.symm
    · rw [if_neg hk] at heq
      exact Or.inl (heq ▸ he0)
  · rw [if_neg hc] at h
    rcases List.mem_append.1 h with h1 | h1
    · exact Or.inl h1
    · exact Or.inr (List.mem_singleton.1 h1)

theorem namedInv_insertIU (nameFn : Nat → Option String) (t : NameTable) (k : Nat)
    (v : String) (hinv : namedInv nameFn t) (hk : nameFn k = some v) :
    namedInv nameFn (t.insertIU k v) := by
  intro e he
  rcases mem_insertIU t k v e he with h | rfl
  · exact hinv e h
  · exact hk

theorem containsKey_insertIU_self (t : NameTable) (k : Nat) (v : String) :
    (t.insertIU k v).containsKey k = true := by
  rw [containsKey_iff]
  unfold NameTable.insertIU
  by_cases hc : t.containsKey k
  · rw [if_pos hc]
    obtain ⟨e, he, hk⟩ := (containsKey_iff t k).1 hc
    refine ⟨(k, v), List.mem_map.2 ⟨e, he, ?_⟩, rfl⟩
    rw [if_pos (by simp [hk])]
  · rw [if_neg hc]
    exact ⟨(k, v), List.mem_append_right t (List.mem_singleton.2 rfl), rfl⟩

theorem containsKey_insertIU_mono (t : NameTable) (k q : Nat) (v : String)
    (h : t.containsKey q = true) : (t.insertIU k v).containsKey q = true := by
  rw [containsKey_iff] at h ⊢
  obtain ⟨e, he, hq⟩ := h
  unfold NameTable.insertIU
  by_cases hc : t.containsKey k
  · rw [if_pos hc]
    by_cases hek : (e.1 == k) = true
    · refine ⟨(k, v), List.mem_map.2 ⟨e, he, by rw [if_pos hek]⟩, ?_⟩
      have hek2 : e.1 = k := by simpa using hek
      show k = q
      rw [← hek2]
      exact hq
    · exact ⟨e, List.mem_map.2 ⟨e, he, by rw [if_neg hek]⟩, hq⟩
  · rw [if_neg hc]
    exact ⟨e, List.mem_append_left _ he, hq⟩

theorem containsKey_nameAuxStep_mono (nameFn : Nat → Option String) (t : NameTable)
    (pd : PDep) (q : Nat) (h : t.containsKey q = true) :
    (nameAuxStep nameFn t pd).containsKey q = true := by
  cases pd with
  | defUse j => exact h
  | aux s =>
    show (if t.containsKey s then t
      else match nameFn s with
        | some nm => t.insertIU s nm
        | none => t.insertIU s ("Op" ++ Nat.repr t.size)).containsKey q = true
    by_cases hc : t.containsKey s
    · rw [if_pos hc]
      exact h
    · rw [if_neg hc]
      cases nameFn s with
      | some nm => exact containsKey_insertIU_mono t s q nm h
      | none => exact containsKey_insertIU_mono t s q _ h

theorem containsKey_foldl_aux_mono (nameFn : Nat → Option String) (ds : List PDep) :
    ∀ (t : NameTable) (q : Nat), t.containsKey q = true →
      (ds.foldl (nameAuxStep nameFn) t).containsKey q = true := by
  induction ds with
  | nil => intro t q h; exact h
  | cons d ds ih =>
    intro t q h
    rw [List.foldl_cons]
    exact ih _ q (containsKey_nameAuxStep_mono nameFn t d q h)

theorem containsKey_nameOpStep_mono (prob : Problem) (nameFn : Nat → Option String)
    (t : NameTable) (i q : Nat) (h : t.containsKey q = true) :
    (nameOpStep prob nameFn t i).containsKey q = true := by
  show ((prob.getDependences i).foldl (nameAuxStep nameFn)
    (match nameFn i with | some nm => t.insertIU i nm | none => t)).containsKey q = true
  apply containsKey_foldl_aux_mono
  cases nameFn i with
  | some nm => exact containsKey_insertIU_mono t i q nm h
  | none => exact h

theorem containsKey_foldl_op_mono (prob : Problem) (nameFn : Nat → Option String)
    (l : List Nat) : ∀ (t : NameTable) (q : Nat), t.containsKey q = true →
      (l.foldl (nameOpStep prob nameFn) t).containsKey q = true := by
  induction l with
  | nil => intro t q h; exact h
  | cons i l ih =>
    intro t q h
    rw [List.foldl_cons]
    exact ih _ q (containsKey_nameOpStep_mono prob nameFn t i q h)

theorem containsKey_foldl_op_of_mem (prob : Problem) (nameFn : Nat → Option String)
    (l : List Nat) : ∀ (t : NameTable) (k : Nat) (nm : String), k ∈ l →
      nameFn k = some nm → ((l.foldl (nameOpStep prob nameFn) t)).containsKey k = true := by
  induction l with
  | nil => intro t k nm hk _; cases hk
  | cons i l ih =>
    intro t k nm hk hnm
    rw [List.foldl_cons]
    rcases List.mem_cons.1 hk with rfl | hk2
    · apply containsKey_foldl_op_mono
      show ((prob.getDependences k).foldl (nameAuxStep nameFn)
        (match nameFn k with | some nm => t.insertIU k nm | none => t)).containsKey k = true
      apply containsKey_foldl_aux_mono
      rw [hnm]
      exact containsKey_insertIU_self t k nm
    · exact ih _ k nm hk2 hnm

theorem namedInv_nameAuxStep (nameFn : Nat → Option String) (t : NameTable) (pd : PDep)
    (hinv : namedInv nameFn t)
    (hA : ∀ s, pd = PDep.aux s → (nameFn s).isSome = true) :
    namedInv nameFn (nameAuxStep nameFn t pd) := by
  cases pd with
  | defUse j => exact hinv
  | aux s =>
    have hs := hA s rfl
    show namedInv nameFn (if t.containsKey s then t
      else match nameFn s with
        | some nm => t.insertIU s nm
        | none => t.insertIU s ("Op" ++ Nat.repr t.size))
    by_cases hc : t.containsKey s
    · rw [if_pos hc]
      exact hinv
    · rw [if_neg hc]
      cases hn : nameFn s with
      | some nm => exact namedInv_insertIU nameFn t s nm hinv hn
      | none =>
        rw [hn] at hs
        simp at hs

theorem namedInv_foldl_aux (nameFn : Nat → Option String) (ds : List PDep) :
    ∀ t : NameTable, namedInv nameFn t →
      (∀ s, PDep.aux s ∈ ds → (nameFn s).isSome = true) →
      namedInv nameFn (ds.foldl (nameAuxStep nameFn) t) := by
  induction ds with
  | nil => intro t h _; exact h
  | cons d ds ih =>
    intro t h hA
    rw [List.foldl_cons]
    apply ih
    · apply namedInv_nameAuxStep nameFn t d h
      intro s hds
      apply hA s
      rw [← hds]
      exact List.mem_cons_self d ds
    · intro s hs
      exact hA s (List.mem_cons_of_mem d hs)

theorem namedInv_nameOpStep (prob : Problem) (nameFn : Nat → Option String)
    (t : NameTable) (i : Nat) (hinv : namedInv nameFn t)
    (hA : ∀ s ∈ prob.auxDeps i, (nameFn s).isSome = true) :
    namedInv nameFn (nameOpStep prob nameFn t i) := by
  show namedInv nameFn ((prob.getDependences i).foldl (nameAuxStep nameFn)
    (match nameFn i with | some nm => t.insertIU i nm | none => t))
  apply namedInv_foldl_aux
  · cases hn : nameFn i with
    | some nm => exact namedInv_insertIU nameFn t i nm hinv hn
    | none => exact hinv
  · intro s hs
    apply hA
    unfold Problem.getDependences at hs
    rcases List.mem_append.1 hs with h1 | h1
    · obtain ⟨j, _, hj⟩ := List.mem_map.1 h1
      cases hj
    · obtain ⟨s0, hs0, hj⟩ := List.mem_map.1 h1
      cases hj
      exact hs0

theorem namedInv_buildNameTable (prob : Problem) (nameFn : Nat → Option String)
    (hA : ∀ d, d < prob.operations.length →
      ∀ s ∈ prob.auxDeps d, (nameFn s).isSome = true) :
    namedInv nameFn (buildNameTable prob nameFn) := by
  unfold buildNameTable
  have hgen : ∀ (l : List Nat), (∀ d ∈ l, d < prob.operations.length) →
      ∀ t : NameTable, namedInv nameFn t →
      namedInv nameFn (l.foldl (nameOpStep prob nameFn) t) := by
    intro l
    induction l with
    | nil => intro _ t h; exact h
    | cons i l ih =>
      intro hl t h
      rw [List.foldl_cons]
      apply ih (fun d hd => hl d (List.mem_cons_of_mem i hd))
      exact namedInv_nameOpStep prob nameFn t i h
        (hA i (hl i (List.mem_cons_self i l)))
  apply hgen (List.range prob.operations.length)
    (fun d hd => List.mem_range.1 hd)
  intro e he
  cases he

theorem lookup_of_containsKey (nameFn : Nat → Option String) (t : NameTable) (k : Nat)
    (hinv : namedInv nameFn t) (hc : t.containsKey k = true) :
    t.lookup k = nameFn k := by
  obtain ⟨e, he, hk⟩ := (containsKey_iff t k).1 hc
  unfold NameTable.lookup
  cases hf : List.find? (fun e => e.1 == k) t with
  | none =>
    rw [List.find?_eq_none] at hf
    exact absurd (by simp [hk]) (hf e he)
  | some e0 =>
    have hme := List.mem_of_find?_eq_some hf
    have hpe := List.find?_some hf
    have hk0 : e0.1 = k := by simpa using hpe
    have hv := hinv e0 hme
    rw [hk0] at hv
    rw [hv]
    rfl

theorem lookup_none_of_namedInv (nameFn : Nat → Option String) (t : NameTable) (k : Nat)
    (hinv : namedInv nameFn t) (hk : nameFn k = none) : t.lookup k = none := by
  unfold NameTable.lookup
  cases hf : List.find? (fun e => e.1 == k) t with
  | none => rfl
  | some e0 =>
    have hme := List.mem_of_find?_eq_some hf
    have hpe := List.find?_some hf
    have hk0 : e0.1 = k := by simpa using hpe
    have hv := hinv e0 hme
    rw [hk0, hk] at hv
    cases hv

theorem buildNameTable_lookup (prob : Problem) (nameFn : Nat → Option String)
    (hA : ∀ d, d < prob.operations.length →
      ∀ s ∈ prob.auxDeps d, (nameFn s).isSome = true)
    (k : Nat) (hk : k < prob.operations.length) :
    (buildNameTable prob nameFn).lookup k = nameFn k := by
  have hinv := namedInv_buildNameTable prob nameFn hA
  cases hn : nameFn k with
  | none => exact lookup_none_of_namedInv nameFn _ k hinv hn
  | some nm =>
    have hc : (buildNameTable prob nameFn).containsKey k = true := by
      unfold buildNameTable
      exact containsKey_foldl_op_of_mem prob nameFn
        (List.range prob.operations.length) [] k nm (List.mem_range.2 hk) hn
    rw [lookup_of_containsKey nameFn _ k hinv hc]
    exact hn

/-! ### C1 helpers: the emitted records of a saved problem -/

theorem saveOperation_deps_getD (prob : Problem) (opKinds depKinds : List PropKind)
    (t : NameTable) (i : Nat) :
    (saveOperation prob opKinds depKinds t i).dependences.getD [] =
      emitDeps prob depKinds t i := by
  show (if (emitDeps prob depKinds t i).isEmpty then none
    else some (emitDeps prob depKinds t i)).getD [] = emitDeps prob depKinds t i
  by_cases he : (emitDeps prob depKinds t i).isEmpty
  · rw [if_pos he]
    rw [List.isEmpty_iff] at he
    rw [he]
    rfl
  · rw [if_neg he]
    rfl

theorem filterMap_resolveRec_dataRecords (E : InstanceOp) (prob : Problem)
    (dk : List PropKind) (i : Nat) (js : List Nat) :
    (dataRecords prob dk i js).filterMap (resolveRec E) = [] := by
  rw [List.filterMap_eq_nil_iff]
  intro r hr
  exact resolveRec_none E r (dataRecords_sourceRef prob dk i js r hr)

theorem filterMap_resolveRec_auxRecords (E : InstanceOp) (prob : Problem)
    (dk : List PropKind) (t : NameTable) (i : Nat) :
    ∀ (ss : List Nat) (c : Nat),
      (∀ s ∈ ss, lookupSymbolIn E ((t.lookup s).getD "") = some (SymRes.oper s)) →
      (auxRecords prob dk t i c ss).filterMap (resolveRec E) = ss := by
  intro ss
  induction ss with
  | nil => intro c _; rfl
  | cons s ss ih =>
    intro c hres
    unfold auxRecords
    have h1 : resolveRec E
        (⟨c, some ((t.lookup s).getD ""), saveProps dk (prob.adepProps i s)⟩ :
          DependenceAttr) = some s :=
      resolveRec_some E _ _ rfl s (hres s (List.mem_cons_self s ss))
    rw [List.filterMap_cons_some h1,
      ih (c + 1) (fun s2 hs2 => hres s2 (List.mem_cons_of_mem s hs2))]

theorem dataRecPropsL_append (l1 l2 : List DependenceAttr) (j : Nat) :
    dataRecPropsL (l1 ++ l2) j = dataRecPropsL l1 j ++ dataRecPropsL l2 j := by
  unfold dataRecPropsL
  rw [List.filter_append, List.map_append]

theorem dataRecPropsL_cons (r : DependenceAttr) (rest : List DependenceAttr) (j : Nat) :
    dataRecPropsL (r :: rest) j =
      if (r.sourceRef == none && r.operandIdx == j) then r.properties :: dataRecPropsL rest j
      else dataRecPropsL rest j := by
  unfold dataRecPropsL
  rw [List.filter_cons]
  by_cases hp : (r.sourceRef == none && r.operandIdx == j) = true
  · rw [if_pos hp, if_pos hp, List.map_cons]
  · rw [if_neg hp, if_neg hp]

theorem dataRecPropsL_auxRecords (prob : Problem) (dk : List PropKind) (t : NameTable)
    (i j : Nat) (ss : List Nat) :
    ∀ c, dataRecPropsL (auxRecords prob dk t i c ss) j = [] := by
  induction ss with
  | nil => intro c; rfl
  | cons s ss ih =>
    intro c
    unfold auxRecords
    rw [dataRecPropsL_cons, if_neg (by simp)]
    exact ih (c + 1)

theorem dataRecPropsL_dataRecords (prob : Problem) (dk : List PropKind) (i : Nat) :
    ∀ (js : List Nat) (j : Nat), js.Nodup →
      dataRecPropsL (dataRecords prob dk i js) j =
        if j ∈ js then ((saveProps dk (prob.ddepProps i j)).map Option.some).toList
        else [] := by
  intro js
  induction js with
  | nil =>
    intro j _
    rw [if_neg (List.not_mem_nil j)]
    rfl
  | cons j0 js ih =>
    intro j hnd
    have hj0 := (List.nodup_cons.1 hnd).1
    have hih := ih j (List.nodup_cons.1 hnd).2
    unfold dataRecords
    unfold dataRecords at hih
    cases hs : saveProps dk (prob.ddepProps i j0) with
    | none =>
      rw [List.filterMap_cons]
      simp only [hs, Option.map_none']
      rw [hih]
      by_cases hj : j = j0
      · subst hj
        rw [if_neg hj0, if_pos (List.mem_cons_self j js), hs]
        rfl
      · by_cases hjs : j ∈ js
        · rw [if_pos hjs, if_pos (List.mem_cons_of_mem j0 hjs)]
        · rw [if_neg hjs, if_neg ?hout]
          case hout =>
            intro hmem
            rcases List.mem_cons.1 hmem with h1 | h1
            · exact hj h1
            · exact hjs h1
    | some ps =>
      rw [List.filterMap_cons]
      simp only [hs, Option.map_some']
      rw [dataRecPropsL_cons]
      by_cases hj : j = j0
      · subst hj
        rw [if_pos (by simp), hih, if_neg hj0, if_pos (List.mem_cons_self j js), hs]
        rfl
      · rw [if_neg (by simp [Ne.symm hj]), hih]
        by_cases hjs : j ∈ js
        · rw [if_pos hjs, if_pos (List.mem_cons_of_mem j0 hjs)]
        · rw [if_neg hjs, if_neg ?hout2]
          case hout2 =>
            intro hmem
            rcases List.mem_cons.1 hmem with h1 | h1
            · exact hj h1
            · exact hjs h1

theorem auxRecPropsToL_append (E : InstanceOp) (l1 l2 : List DependenceAttr) (s : Nat) :
    auxRecPropsToL E (l1 ++ l2) s = auxRecPropsToL E l1 s ++ auxRecPropsToL E l2 s := by
  unfold auxRecPropsToL
  rw [List.filter_append, List.map_append]

theorem auxRecPropsToL_cons (E : InstanceOp) (r : DependenceAttr)
    (rest : List DependenceAttr) (s : Nat) :
    auxRecPropsToL E (r :: rest) s =
      if (resolveRec E r == some s) then r.properties :: auxRecPropsToL E rest s
      else auxRecPropsToL E rest s := by
  unfold auxRecPropsToL
  rw [List.filter_cons]
  by_cases hp : (resolveRec E r == some s) = true
  · rw [if_pos hp, if_pos hp, List.map_cons]
  · rw [if_neg hp, if_neg hp]

theorem auxRecPropsToL_dataRecords (E : InstanceOp) (prob : Problem) (dk : List PropKind)
    (i : Nat) (js : List Nat) (s : Nat) :
    auxRecPropsToL E (dataRecords prob dk i js) s = [] := by
  have hfil : (dataRecords prob dk i js).filter (fun r => resolveRec E r == some s) = [] := by
    rw [List.filter_eq_nil_iff]
    intro r hr hcond
    rw [resolveRec_none E r (dataRecords_sourceRef prob dk i js r hr)] at hcond
    simp at hcond
  unfold auxRecPropsToL
  rw [hfil]
  rfl

theorem auxRecPropsToL_auxRecords (E : InstanceOp) (prob : Problem) (dk : List PropKind)
    (t : NameTable) (i : Nat) :
    ∀ (ss : List Nat) (s c : Nat), ss.Nodup →
      (∀ s2 ∈ ss, lookupSymbolIn E ((t.lookup s2).getD "") = some (SymRes.oper s2)) →
      auxRecPropsToL E (auxRecords prob dk t i c ss) s =
        if s ∈ ss then [saveProps dk (prob.adepProps i s)] else [] := by
  intro ss
  induction ss with
  | nil =>
    intro s c _ _
    rw [if_neg (List.not_mem_nil s)]
    rfl
  | cons s0 ss ih =>
    intro s c hnd hres
    have hs0 := (List.nodup_cons.1 hnd).1
    have hih := ih s (c + 1) (List.nodup_cons.1 hnd).2
      (fun s2 h2 => hres s2 (List.mem_cons_of_mem s0 h2))
    unfold auxRecords
    rw [auxRecPropsToL_cons]
    have hr : resolveRec E
        (⟨c, some ((t.lookup s0).getD ""), saveProps dk (prob.adepProps i s0)⟩ :
          DependenceAttr) = some s0 :=
      resolveRec_some E _ _ rfl s0 (hres s0 (List.mem_cons_self s0 ss))
    rw [hr]
    by_cases hss : s = s0
    · subst hss
      rw [if_pos (by simp), hih, if_neg hs0, if_pos (List.mem_cons_self s ss)]
    · rw [if_neg (by simp [Ne.symm hss]), hih]
      by_cases hmem : s ∈ ss
      · rw [if_pos hmem, if_pos (List.mem_cons_of_mem s0 hmem)]
      · rw [if_neg hmem, if_neg ?hout3]
        case hout3 =>
          intro h
          rcases List.mem_cons.1 h with h1 | h1
          · exact hss h1
          · exact hmem h1

theorem dataRecPropsL_of_recOk (E : InstanceOp) (nOps : Nat) (recs : List DependenceAttr)
    (hok : ∀ r ∈ recs, recOk E nOps r) (j : Nat) (hj : nOps ≤ j) :
    dataRecPropsL recs j = [] := by
  have hfil : recs.filter (fun r => r.sourceRef == none && r.operandIdx == j) = [] := by
    rw [List.filter_eq_nil_iff]
    intro r hr hcond
    have hr2 := hok r hr
    unfold recOk at hr2
    cases hs : r.sourceRef with
    | some nm =>
      rw [hs] at hcond
      simp at hcond
    | none =>
      rw [hs] at hr2
      have hlt : r.operandIdx < nOps := hr2
      rw [hs] at hcond
      simp at hcond
      omega
  unfold dataRecPropsL
  rw [hfil]
  rfl

theorem auxRecPropsToL_of_not_mem (E : InstanceOp) (recs : List DependenceAttr) (s : Nat)
    (h : s ∉ auxSourcesL E recs) : auxRecPropsToL E recs s = [] := by
  have hfil : recs.filter (fun r => resolveRec E r == some s) = [] := by
    rw [List.filter_eq_nil_iff]
    intro r hr hcond
    apply h
    unfold auxSourcesL
    have hr2 : resolveRec E r = some s := by simpa using hcond
    exact List.mem_filterMap.2 ⟨r, hr, hr2⟩
  unfold auxRecPropsToL
  rw [hfil]
  rfl

/-! ### C1 helpers: resolving the saved document's references -/

theorem lookupSymbolIn_oper (D : InstanceOp) (nm : String) (s : Nat)
    (h : lookupSymbolIn D nm = some (SymRes.oper s)) :
    D.operatorTypes.any (fun o => o.sym_name == nm) = false ∧
    s < D.operations.length ∧ origNameFn D s = some nm ∧
    D.operations.findIdx? (fun op => op.sym_name == some nm) = some s := by
  unfold lookupSymbolIn at h
  by_cases hany : D.operatorTypes.any (fun o => o.sym_name == nm) = true
  · rw [if_pos hany] at h
    injection h with h2
    cases h2
  · rw [if_neg hany] at h
    refine ⟨Bool.eq_false_iff.2 hany, ?_⟩
    rw [Option.map_eq_some'] at h
    obtain ⟨a, ha, hao⟩ := h
    injection hao with ha2
    subst ha2
    obtain ⟨hlt, hp, _⟩ := List.findIdx?_eq_some_iff_getElem.1 ha
    refine ⟨hlt, ?_, ha⟩
    unfold origNameFn
    rw [List.getD_eq_getElem?_getD, List.getElem?_eq_getElem hlt]
    simpa using hp

theorem foldl_insertOperatorType_eq (decls : List OperatorTypeOp) :
    ∀ acc : List String,
      decls.foldl (fun ts o => insertOperatorType ts o.sym_name) acc =
        (decls.map OperatorTypeOp.sym_name).foldl addUnique acc := by
  induction decls with
  | nil => intro acc; rfl
  | cons o decls ih =>
    intro acc
    rw [List.foldl_cons, List.map_cons, List.foldl_cons]
    exact ih _

theorem auxDeps_src (D : InstanceOp) (opK oprK depK instK : List PropKind)
    (P : Problem) (hload : loadProblem D opK oprK depK instK = some P)
    (d s : Nat) (hs : s ∈ P.auxDeps d) :
    ∃ nm, s < D.operations.length ∧ origNameFn D s = some nm ∧
      lookupSymbolIn D nm = some (SymRes.oper s) := by
  have hchar := loadProblem_char D opK oprK depK instK P hload
  have hd := hchar.2.2.2.2.2.1 d
  rw [hd] at hs
  by_cases hdn : d < D.operations.length
  · rw [if_pos hdn] at hs
    rcases (mem_foldl_addUnique _ [] s).1 hs with h | h
    · cases h
    · unfold auxSources auxSourcesL at h
      obtain ⟨r, hr, hres⟩ := List.mem_filterMap.1 h
      unfold resolveRec at hres
      cases hsr : r.sourceRef with
      | none =>
        rw [hsr] at hres
        cases hres
      | some nm =>
        rw [hsr] at hres
        have hres2 : (match lookupSymbolIn D nm with
          | some (SymRes.oper j) => some j
          | _ => none) = some s := hres
        cases hl : lookupSymbolIn D nm with
        | none =>
          rw [hl] at hres2
          cases hres2
        | some sr =>
          cases sr with
          | oprType =>
            rw [hl] at hres2
            cases hres2
          | oper j =>
            rw [hl] at hres2
            have h3 : some j = some s := hres2
            injection h3 with hjs
            subst hjs
            obtain ⟨hany, hlt, hname, _⟩ := lookupSymbolIn_oper D nm j hl
            exact ⟨nm, hlt, hname, hl⟩
  · rw [if_neg hdn] at hs
    cases hs

theorem roundtrip_lookup (D : InstanceOp) (opK oprK depK instK : List PropKind)
    (P : Problem) (hload : loadProblem D opK oprK depK instK = some P)
    (k : Nat) (hk : k < P.operations.length) :
    (buildNameTable P (origNameFn D)).lookup k = origNameFn D k := by
  apply buildNameTable_lookup
  · intro d _ s hs
    obtain ⟨nm, _, hname, _⟩ := auxDeps_src D opK oprK depK instK P hload d s hs
    rw [hname]
    rfl
  · exact hk

theorem save_sym_map (D : InstanceOp) (opK oprK depK instK : List PropKind) (P : Problem)
    (hload : loadProblem D opK oprK depK instK = some P) :
    (saveProblem P D.instanceName D.problemName (origNameFn D)
        opK oprK depK instK).operations.map OperationOp.sym_name =
      D.operations.map OperationOp.sym_name := by
  have hchar := loadProblem_char D opK oprK depK instK P hload
  have hlen : P.operations.length = D.operations.length := by
    rw [hchar.1, List.length_map]
  have hops : (saveProblem P D.instanceName D.problemName (origNameFn D)
      opK oprK depK instK).operations =
      (List.range P.operations.length).map
        (saveOperation P opK depK (buildNameTable P (origNameFn D))) := rfl
  rw [hops]
  apply List.ext_getElem
  · rw [List.length_map, List.length_map, List.length_map, List.length_range, hlen]
  · intro i h1 h2
    have hi : i < P.operations.length := by
      rw [List.length_map, List.length_map, List.length_range] at h1
      exact h1
    have hdlt : i < D.operations.length := by
      rw [← hlen]
      exact hi
    rw [List.getElem_map, List.getElem_map, List.getElem_map, List.getElem_range]
    show (buildNameTable P (origNameFn D)).lookup i = (D.operations[i]).sym_name
    rw [roundtrip_lookup D opK oprK depK instK P hload i hi]
    unfold origNameFn
    rw [List.getD_eq_getElem?_getD, List.getElem?_eq_getElem hdlt]
    rfl

theorem save_resolve (D : InstanceOp) (opK oprK depK instK : List PropKind) (P : Problem)
    (hload : loadProblem D opK oprK depK instK = some P)
    (nm : String) (s : Nat) (h : lookupSymbolIn D nm = some (SymRes.oper s)) :
    lookupSymbolIn (saveProblem P D.instanceName D.problemName (origNameFn D)
      opK oprK depK instK) nm = some (SymRes.oper s) := by
  have hchar := loadProblem_char D opK oprK depK instK P hload
  obtain ⟨hany, hlt, hname, hfind⟩ := lookupSymbolIn_oper D nm s h
  have hnot : nm ∉ P.operatorTypes := by
    intro hmem
    rw [hchar.2.1, foldl_insertOperatorType_eq] at hmem
    rcases (mem_foldl_addUnique _ [] nm).1 hmem with h1 | h1
    · cases h1
    · obtain ⟨o, ho, hosym⟩ := List.mem_map.1 h1
      have htrue : D.operatorTypes.any (fun o => o.sym_name == nm) = true :=
        List.any_eq_true.2 ⟨o, ho, by simp [hosym]⟩
      rw [hany] at htrue
      cases htrue
  have hops2 : (saveProblem P D.instanceName D.problemName (origNameFn D)
      opK oprK depK instK).operatorTypes =
      P.operatorTypes.map
        (fun x => (⟨x, saveProps oprK (P.oprProps x)⟩ : OperatorTypeOp)) := rfl
  have hany2 : (saveProblem P D.instanceName D.problemName (origNameFn D)
      opK oprK depK instK).operatorTypes.any (fun o => o.sym_name == nm) = false := by
    rw [hops2]
    refine Bool.eq_false_iff.2 (fun hx => ?_)
    rw [List.any_eq_true] at hx
    obtain ⟨o, ho, hp⟩ := hx
    obtain ⟨x, hxm, rfl⟩ := List.mem_map.1 ho
    have hxnm : x = nm := by simpa using hp
    subst hxnm
    exact hnot hxm
  have hsym := save_sym_map D opK oprK depK instK P hload
  have hfi : (saveProblem P D.instanceName D.problemName (origNameFn D)
      opK oprK depK instK).operations.findIdx? (fun op => op.sym_name == some nm) =
      some s := by
    have e1 : (saveProblem P D.instanceName D.problemName (origNameFn D)
        opK oprK depK instK).operations.findIdx? (fun op => op.sym_name == some nm) =
        ((saveProblem P D.instanceName D.problemName (origNameFn D)
          opK oprK depK instK).operations.map OperationOp.sym_name).findIdx?
          (fun x => x == some nm) := by
      rw [List.findIdx?_map]
      rfl
    rw [e1, hsym, List.findIdx?_map]
    exact hfind
  unfold lookupSymbolIn
  rw [if_neg (by rw [hany2]; exact Bool.false_ne_true), hfi]
  rfl

theorem roundtrip_resolve (D : InstanceOp) (opK oprK depK instK : List PropKind)
    (P : Problem) (hload : loadProblem D opK oprK depK instK = some P)
    (d s : Nat) (hs : s ∈ P.auxDeps d) :
    lookupSymbolIn (saveProblem P D.instanceName D.problemName (origNameFn D)
        opK oprK depK instK)
      (((buildNameTable P (origNameFn D)).lookup s).getD "") = some (SymRes.oper s) := by
  obtain ⟨nm, hlt, hname, hl⟩ := auxDeps_src D opK oprK depK instK P hload d s hs
  have hlen : P.operations.length = D.operations.length := by
    rw [(loadProblem_char D opK oprK depK instK P hload).1, List.length_map]
  have hlk : (buildNameTable P (origNameFn D)).lookup s = origNameFn D s :=
    roundtrip_lookup D opK oprK depK instK P hload s (by rw [hlen]; exact hlt)
  rw [hlk, hname]
  exact save_resolve D opK oprK depK instK P hload nm s hl

theorem auxRecords_src_mem (prob : Problem) (dk : List PropKind) (t : NameTable) (i : Nat)
    (ss : List Nat) : ∀ c, ∀ r ∈ auxRecords prob dk t i c ss,
      ∃ s ∈ ss, r.sourceRef = some ((t.lookup s).getD "") := by
  induction ss with
  | nil => intro c r hr; cases hr
  | cons s ss ih =>
    intro c r hr
    unfold auxRecords at hr
    rcases List.mem_cons.1 hr with rfl | hr2
    · exact ⟨s, List.mem_cons_self s ss, rfl⟩
    · obtain ⟨s2, hs2, hsr⟩ := ih (c + 1) r hr2
      exact ⟨s2, List.mem_cons_of_mem s hs2, hsr⟩

theorem roundtrip_load_isSome (D : InstanceOp) (opK oprK depK instK : List PropKind)
    (P : Problem) (hload : loadProblem D opK oprK depK instK = some P) :
    (loadProblem (saveProblem P D.instanceName D.problemName (origNameFn D)
      opK oprK depK instK) opK oprK depK instK).isSome = true := by
  rw [loadProblem_isSome_iff]
  intro op hop r hr
  have hops : (saveProblem P D.instanceName D.problemName (origNameFn D)
      opK oprK depK instK).operations =
      (List.range P.operations.length).map
        (saveOperation P opK depK (buildNameTable P (origNameFn D))) := rfl
  rw [hops] at hop
  obtain ⟨i, hi, rfl⟩ := List.mem_map.1 hop
  rw [saveOperation_deps_getD, emitDeps_eq] at hr
  rcases List.mem_append.1 hr with hdata | haux
  · have hsrc := dataRecords_sourceRef P depK i (List.range (P.numOperands i)) r hdata
    have hidx := dataRecords_idx_mem P depK i _ r hdata
    unfold recOk
    rw [hsrc]
    have hoper : (saveOperation P opK depK (buildNameTable P (origNameFn D)) i).operands =
        (P.operations.getD i default).operands := rfl
    rw [hoper]
    exact List.mem_range.1 hidx
  · obtain ⟨s, hsmem, hsr⟩ := auxRecords_src_mem P depK (buildNameTable P (origNameFn D))
      i (P.auxDeps i) (P.numOperands i) r haux
    unfold recOk
    rw [hsr]
    exact ⟨s, roundtrip_resolve D opK oprK depK instK P hload i s hsmem⟩

/-- C1.  Round trip: a `Problem` loaded from a document by `loadProblem`
(with unambiguously decodable kind lists) and saved again by `saveProblem`
with the same kind lists and a `nameFn` reproducing the document's original
operation names yields a document that `loadProblem` decodes back to a
problem isomorphic to the original one: the same operations in the same
order, the same operator types, the same auxiliary dependence sets, and the
same property values at every attachment point for every recognized kind. -/
theorem load_save_roundtrip (D : InstanceOp) (opK oprK depK instK : List PropKind)
    (P : Problem)
    (hopK : kindsOk opK) (hoprK : kindsOk oprK) (hdepK : kindsOk depK)
    (hinstK : kindsOk instK)
    (hload : loadProblem D opK oprK depK instK = some P) :
    ∃ P2, loadProblem (saveProblem P D.instanceName D.problemName (origNameFn D)
        opK oprK depK instK) opK oprK depK instK = some P2 ∧
      isoProblem opK oprK depK instK P2 P := by
  obtain ⟨P2, hP2⟩ := Option.isSome_iff_exists.1
    (roundtrip_load_isSome D opK oprK depK instK P hload)
  refine ⟨P2, hP2, ?_⟩
  have hcharD := loadProblem_char D opK oprK depK instK P hload
  have hchar2 := loadProblem_char (saveProblem P D.instanceName D.problemName (origNameFn D)
    opK oprK depK instK) opK oprK depK instK P2 hP2
  have hlen : P.operations.length = D.operations.length := by
    rw [hcharD.1, List.length_map]
  have hops : (saveProblem P D.instanceName D.problemName (origNameFn D)
      opK oprK depK instK).operations =
      (List.range P.operations.length).map
        (saveOperation P opK depK (buildNameTable P (origNameFn D))) := rfl
  have hlen2 : (saveProblem P D.instanceName D.problemName (origNameFn D)
      opK oprK depK instK).operations.length = P.operations.length := by
    rw [hops, List.length_map, List.length_range]
  have hrecOk := (loadProblem_isSome_iff D opK oprK depK instK).1 (by rw [hload]; rfl)
  have hgetD : ∀ i, i < P.operations.length →
      (saveProblem P D.instanceName D.problemName (origNameFn D)
        opK oprK depK instK).operations.getD i default =
        saveOperation P opK depK (buildNameTable P (origNameFn D)) i := by
    intro i hi
    rw [hops]
    exact getD_map_range _ _ i default hi
  have hnodupOpr : P.operatorTypes.Nodup := by
    rw [hcharD.2.1, foldl_insertOperatorType_eq]
    exact nodup_foldl_addUnique _ [] List.nodup_nil
  have hnodupAux : ∀ d, (P.auxDeps d).Nodup := by
    intro d
    rw [hcharD.2.2.2.2.2.1 d]
    by_cases hd : d < D.operations.length
    · rw [if_pos hd]
      exact nodup_foldl_addUnique _ [] List.nodup_nil
    · rw [if_neg hd]
      exact List.nodup_nil
  unfold isoProblem
  refine ⟨?_, ?_, ?_, ?_, ?_, ?_, ?_, ?_⟩
  · -- operations
    rw [hchar2.1, hops]
    apply List.ext_getElem
    · rw [List.length_map, List.length_map, List.length_range]
    · intro i h1 h2
      rw [List.getElem_map, List.getElem_map, List.getElem_range]
      show (⟨(P.operations.getD i default).operands,
        (P.operations.getD i default).numResults⟩ : OpNode) = P.operations[i]
      rw [List.getD_eq_getElem?_getD, List.getElem?_eq_getElem h2]
      rfl
  · -- operator types
    rw [hchar2.2.1]
    have hoprs : (saveProblem P D.instanceName D.problemName (origNameFn D)
        opK oprK depK instK).operatorTypes =
        P.operatorTypes.map
          (fun x => (⟨x, saveProps oprK (P.oprProps x)⟩ : OperatorTypeOp)) := rfl
    rw [hoprs, foldl_insertOperatorType_eq, List.map_map]
    have hmapid : P.operatorTypes.map (OperatorTypeOp.sym_name ∘
        (fun x => (⟨x, saveProps oprK (P.oprProps x)⟩ : OperatorTypeOp))) =
        P.operatorTypes.map id := rfl
    rw [hmapid, List.map_id]
    exact foldl_addUnique_self P.operatorTypes hnodupOpr
  · -- auxiliary dependences
    intro d
    rw [hchar2.2.2.2.2.2.1 d]
    by_cases hd : d < (saveProblem P D.instanceName D.problemName (origNameFn D)
        opK oprK depK instK).operations.length
    · rw [if_pos hd]
      have hdP : d < P.operations.length := by
        rw [← hlen2]
        exact hd
      rw [hgetD d hdP]
      have hsrcs : auxSources (saveProblem P D.instanceName D.problemName (origNameFn D)
          opK oprK depK instK)
          (saveOperation P opK depK (buildNameTable P (origNameFn D)) d) = P.auxDeps d := by
        unfold auxSources
        rw [saveOperation_deps_getD, emitDeps_eq]
        unfold auxSourcesL
        rw [List.filterMap_append, filterMap_resolveRec_dataRecords, List.nil_append]
        exact filterMap_resolveRec_auxRecords
          (saveProblem P D.instanceName D.problemName (origNameFn D) opK oprK depK instK)
          P depK (buildNameTable P (origNameFn D)) d (P.auxDeps d) (P.numOperands d)
          (fun s hs => roundtrip_resolve D opK oprK depK instK P hload d s hs)
      rw [hsrcs]
      exact foldl_addUnique_self _ (hnodupAux d)
    · rw [if_neg hd]
      have hdD : ¬ d < D.operations.length := by
        rw [← hlen, ← hlen2]
        exact hd
      rw [hcharD.2.2.2.2.2.1 d, if_neg hdD]
  · -- instance properties
    intro k hk
    rw [hchar2.2.2.1]
    have hprops : (saveProblem P D.instanceName D.problemName (origNameFn D)
        opK oprK depK instK).properties = saveProps instK P.instProps := rfl
    rw [hprops]
    exact loadProps_saveProps_slot instK hinstK P.instProps k hk
  · -- operator-type properties
    intro nm k hk
    rw [hchar2.2.2.2.1 nm]
    have hoprs : (saveProblem P D.instanceName D.problemName (origNameFn D)
        opK oprK depK instK).operatorTypes =
        P.operatorTypes.map
          (fun x => (⟨x, saveProps oprK (P.oprProps x)⟩ : OperatorTypeOp)) := rfl
    rw [hoprs]
    have hdecl : oprDeclProps (P.operatorTypes.map
        (fun x => (⟨x, saveProps oprK (P.oprProps x)⟩ : OperatorTypeOp))) nm =
        if nm ∈ P.operatorTypes then [saveProps oprK (P.oprProps nm)] else [] := by
      unfold oprDeclProps
      rw [List.filter_map]
      have hcomp : P.operatorTypes.filter ((fun o => o.sym_name == nm) ∘
          (fun x => (⟨x, saveProps oprK (P.oprProps x)⟩ : OperatorTypeOp))) =
          P.operatorTypes.filter (fun x => x == nm) := rfl
      rw [hcomp, filter_beq_of_nodup P.operatorTypes nm hnodupOpr]
      by_cases hmem : nm ∈ P.operatorTypes
      · rw [if_pos hmem, if_pos hmem]
        rfl
      · rw [if_neg hmem, if_neg hmem]
        rfl
    rw [hdecl]
    by_cases hmem : nm ∈ P.operatorTypes
    · rw [if_pos hmem]
      show loadProps oprK (saveProps oprK (P.oprProps nm)) emptyProps k.slot =
        P.oprProps nm k.slot
      exact loadProps_saveProps_slot oprK hoprK (P.oprProps nm) k hk
    · rw [if_neg hmem]
      have hPform := hcharD.2.2.2.1 nm
      have hdnil : oprDeclProps D.operatorTypes nm = [] := by
        unfold oprDeclProps
        have hfil : D.operatorTypes.filter (fun o => o.sym_name == nm) = [] := by
          rw [List.filter_eq_nil_iff]
          intro o ho hcond
          apply hmem
          have honm : o.sym_name = nm := by simpa using hcond
          rw [hcharD.2.1, foldl_insertOperatorType_eq]
          exact (mem_foldl_addUnique _ [] nm).2 (Or.inr (List.mem_map.2 ⟨o, ho, honm⟩))
        rw [hfil]
        rfl
      rw [hPform, hdnil]
  · -- operation properties
    intro j k hk
    rw [hchar2.2.2.2.2.1 j]
    by_cases hj : j < (saveProblem P D.instanceName D.problemName (origNameFn D)
        opK oprK depK instK).operations.length
    · rw [if_pos hj]
      have hjP : j < P.operations.length := by
        rw [← hlen2]
        exact hj
      rw [hgetD j hjP]
      have hp : (saveOperation P opK depK (buildNameTable P (origNameFn D)) j).properties =
          saveProps opK (P.opProps j) := rfl
      rw [hp]
      exact loadProps_saveProps_slot opK hopK (P.opProps j) k hk
    · rw [if_neg hj]
      have hjD : ¬ j < D.operations.length := by
        rw [← hlen, ← hlen2]
        exact hj
      rw [hcharD.2.2.2.2.1 j, if_neg hjD]
  · -- def-use dependence properties
    intro d j k hk
    rw [hchar2.2.2.2.2.2.2.1 d j]
    by_cases hd : d < (saveProblem P D.instanceName D.problemName (origNameFn D)
        opK oprK depK instK).operations.length
    · rw [if_pos hd]
      have hdP : d < P.operations.length := by
        rw [← hlen2]
        exact hd
      have hdD : d < D.operations.length := by
        rw [← hlen]
        exact hdP
      rw [hgetD d hdP]
      unfold dataRecProps
      rw [saveOperation_deps_getD, emitDeps_eq, dataRecPropsL_append,
        dataRecPropsL_auxRecords, List.append_nil,
        dataRecPropsL_dataRecords P depK d (List.range (P.numOperands d)) j
          (List.nodup_range _)]
      by_cases hjm : j ∈ List.range (P.numOperands d)
      · rw [if_pos hjm]
        cases hsp : saveProps depK (P.ddepProps d j) with
        | none =>
          rw [saveProps_none depK (P.ddepProps d j) hsp k hk]
          rfl
        | some ps =>
          show loadProps depK (some ps) emptyProps k.slot = P.ddepProps d j k.slot
          rw [← hsp]
          exact loadProps_saveProps_slot depK hdepK (P.ddepProps d j) k hk
      · rw [if_neg hjm]
        have hjn : P.numOperands d ≤ j := by
          rcases Nat.lt_or_ge j (P.numOperands d) with h | h
          · exact absurd (List.mem_range.2 h) hjm
          · exact h
        have hnum : P.numOperands d = (D.operations.getD d default).operands.length := by
          unfold Problem.numOperands
          rw [hcharD.1]
          simp only [List.getD_eq_getElem?_getD, List.getElem?_map,
            List.getElem?_eq_getElem hdD]
          rfl
        rw [hnum] at hjn
        have hopmem : D.operations.getD d default ∈ D.operations := by
          rw [List.getD_eq_getElem?_getD, List.getElem?_eq_getElem hdD]
          exact List.getElem_mem hdD
        have hrecs := hrecOk (D.operations.getD d default) hopmem
        rw [hcharD.2.2.2.2.2.2.1 d j, if_pos hdD]
        unfold dataRecProps
        rw [dataRecPropsL_of_recOk D _ _ hrecs j hjn]
    · rw [if_neg hd]
      have hdD2 : ¬ d < D.operations.length := by
        rw [← hlen, ← hlen2]
        exact hd
      rw [hcharD.2.2.2.2.2.2.1 d j, if_neg hdD2]
  · -- auxiliary dependence properties
    intro d s k hk
    rw [hchar2.2.2.2.2.2.2.2 d s]
    by_cases hd : d < (saveProblem P D.instanceName D.problemName (origNameFn D)
        opK oprK depK instK).operations.length
    · rw [if_pos hd]
      have hdP : d < P.operations.length := by
        rw [← hlen2]
        exact hd
      have hdD : d < D.operations.length := by
        rw [← hlen]
        exact hdP
      rw [hgetD d hdP]
      unfold auxRecPropsTo
      rw [saveOperation_deps_getD, emitDeps_eq, auxRecPropsToL_append,
        auxRecPropsToL_dataRecords, List.nil_append,
        auxRecPropsToL_auxRecords
          (saveProblem P D.instanceName D.problemName (origNameFn D) opK oprK depK instK)
          P depK (buildNameTable P (origNameFn D)) d (P.auxDeps d) s (P.numOperands d)
          (hnodupAux d)
          (fun s2 hs2 => roundtrip_resolve D opK oprK depK instK P hload d s2 hs2)]
      by_cases hmem : s ∈ P.auxDeps d
      · rw [if_pos hmem]
        show loadProps depK (saveProps depK (P.adepProps d s)) emptyProps k.slot =
          P.adepProps d s k.slot
        exact loadProps_saveProps_slot depK hdepK (P.adepProps d s) k hk
      · rw [if_neg hmem]
        rw [hcharD.2.2.2.2.2.2.2 d s, if_pos hdD]
        unfold auxRecPropsTo
        have hnotm : s ∉ auxSourcesL D
            ((D.operations.getD d default).dependences.getD []) := by
          intro hmem2
          apply hmem
          rw [hcharD.2.2.2.2.2.1 d, if_pos hdD]
          exact (mem_foldl_addUnique _ [] s).2 (Or.inr hmem2)
        rw [auxRecPropsToL_of_not_mem D _ s hnotm]
    · rw [if_neg hd]
      have hdD2 : ¬ d < D.operations.length := by
        rw [← hlen, ← hlen2]
        exact hd
      rw [hcharD.2.2.2.2.2.2.2 d s, if_neg hdD2]

theorem load_save_roundtrip_witness :
    ∃ P2, loadProblem
        (saveProblem
          ((loadProblem rtDoc [⟨1, 0⟩] [⟨2, 0⟩] [⟨3, 0⟩] [⟨4, 0⟩]).getD emptyProblem)
          rtDoc.instanceName rtDoc.problemName (origNameFn rtDoc)
          [⟨1, 0⟩] [⟨2, 0⟩] [⟨3, 0⟩] [⟨4, 0⟩])
        [⟨1, 0⟩] [⟨2, 0⟩] [⟨3, 0⟩] [⟨4, 0⟩] = some P2 ∧
      isoProblem [⟨1, 0⟩] [⟨2, 0⟩] [⟨3, 0⟩] [⟨4, 0⟩] P2
        ((loadProblem rtDoc [⟨1, 0⟩] [⟨2, 0⟩] [⟨3, 0⟩] [⟨4, 0⟩]).getD emptyProblem) :=
  load_save_roundtrip rtDoc [⟨1, 0⟩] [⟨2, 0⟩] [⟨3, 0⟩] [⟨4, 0⟩]
    ((loadProblem rtDoc [⟨1, 0⟩] [⟨2, 0⟩] [⟨3, 0⟩] [⟨4, 0⟩]).getD emptyProblem)
    ⟨List.nodup_singleton _, List.nodup_singleton _⟩
    ⟨List.nodup_singleton _, List.nodup_singleton _⟩
    ⟨List.nodup_singleton _, List.nodup_singleton _⟩
    ⟨List.nodup_singleton _, List.nodup_singleton _⟩ rfl

end SSP

